import Mathlib

/-! Verification of the time-entry normalization and labor-time accounting engine
of the Leitor-de-ponto repository.

The definitions below are a shallow embedding of the TypeScript source:
 * `src/utils.ts` (the module imported as `../utils` by `App.tsx` and
   `components/TimecardEditor.tsx`): `timeToMinutes`, `minutesToTime`,
   `mergeCoffeeBreaks`, `removeShortWorkBlocks`, `processTimeEntries`,
   `processRawTimestampsToColumns`, `normalizeAndSortRow`,
   `calculateDailyMinutes`, `getLaborWarnings`, `calculateBalance`,
   `getEasterDate`, `getStandardHolidays`, `getHolidayName`;
 * `src/components/TimecardEditor.tsx`: the calculation `useEffect`
   (first pass, second pass DSR logic, third pass, weekly DSR aggregation)
   and `cycleSundayMode`.

JavaScript numbers holding whole minutes are modelled as `Int`; strings as
Lean `String`, manipulated through their character lists.
-/

namespace Leitor

/-- Characters accepted as whitespace by `String.prototype.trim` and by the
regex class `\s`, restricted to the ASCII range that can occur in punch
strings. -/
def isJsSpace (c : Char) : Bool :=
  c = ' ' || c = '\t' || c = '\n' || c = '\r' || c = '\x0b' || c = '\x0c'

/-- JS `String.prototype.trim`: drop leading and trailing whitespace. -/
def jsTrim (l : List Char) : List Char :=
  ((l.dropWhile isJsSpace).reverse.dropWhile isJsSpace).reverse

/-- JS `String.prototype.toLowerCase` on the alphabet relevant to the parser:
ASCII letters, plus `Ö` (the only non-ASCII letter the OCR substitution
table looks for after lowercasing). -/
def jsToLower (c : Char) : Char :=
  if 'A' ≤ c ∧ c ≤ 'Z' then Char.ofNat (c.toNat + 32)
  else if c = 'Ö' then 'ö'
  else c

/-- The OCR glyph substitution chain of `timeToMinutes`:
`[oö]→0`, `[lIi|]→1`, `[s]→5`, `[b]→8`, `g→9`.  The five successive
`String.replace` calls compose into one character map because no
substitution output is matched by a later pattern. -/
def fixOcrChar (c : Char) : Char :=
  if c = 'o' || c = 'ö' then '0'
  else if c = 'l' || c = 'I' || c = 'i' || c = '|' then '1'
  else if c = 's' then '5'
  else if c = 'b' then '8'
  else if c = 'g' then '9'
  else c

/-- Separator normalization `replace(/[.h\s]/g, ':')`. -/
def sepChar (c : Char) : Char :=
  if c = '.' || c = 'h' || isJsSpace c then ':' else c

/-- Collapse runs of colons, `replace(/:+/g, ':')`. -/
def squeezeColons : List Char → List Char
  | [] => []
  | [c] => [c]
  | a :: b :: rest =>
    if a = ':' ∧ b = ':' then squeezeColons (b :: rest)
    else a :: squeezeColons (b :: rest)

/-- JS `String.prototype.split(':')` on a character list. -/
def splitOnColon : List Char → List (List Char)
  | [] => [[]]
  | c :: rest =>
    let r := splitOnColon rest
    if c = ':' then [] :: r
    else
      match r with
      | h :: t => (c :: h) :: t
      | [] => [[c]]

/-- JS `parseInt(s, 10)`: skip leading whitespace, optional sign, then the
longest digit prefix; `NaN` (here `none`) when no digit follows. -/
def jsParseInt (l : List Char) : Option Int :=
  let l1 := l.dropWhile isJsSpace
  let neg : Bool := if l1.head? = some '-' then true else false
  let l2 : List Char := if l1.head? = some '-' ∨ l1.head? = some '+' then l1.tail else l1
  let ds := l2.takeWhile (fun c => '0' ≤ c && c ≤ '9')
  if ds.isEmpty then none
  else
    let n : Nat := ds.foldl (fun acc c => acc * 10 + (c.toNat - 48)) 0
    some (if neg then -(n : Int) else (n : Int))

/-- Body of `timeToMinutes` from `src/utils.ts` on the character list of the input. -/
def timeToMinutesCore (l : List Char) : Option Int :=
  if l.isEmpty then none
  else if l.contains '?' || l.contains '[' || l.contains ']' then none
  else
    let c1 := (jsTrim (l.map jsToLower)).map fixOcrChar
    let c2 := squeezeColons (c1.map sepChar)
    let c3 :=
      if c2.contains ':' then c2
      else if c2.length = 4 then c2.take 2 ++ ':' :: c2.drop 2
      else if c2.length = 3 then c2.take 1 ++ ':' :: c2.drop 1
      else c2
    match splitOnColon c3 with
    | p0 :: p1 :: _ =>
      match jsParseInt p0, jsParseInt p1 with
      | some hours, some minutes =>
        if hours < 0 ∨ hours > 24 ∨ minutes < 0 ∨ minutes > 59 then none
        else some (hours * 60 + minutes)
      | _, _ => none
    | _ => none

/-- Embedding of `timeToMinutes`: various time string formats to minutes, or `none`. -/
def timeToMinutes (time : String) : Option Int :=
  timeToMinutesCore time.data

/-- Decimal rendering of a natural number (structural recursion on a fuel
argument; `n + 1` units of fuel always suffice since the value shrinks by a
factor of ten per digit). -/
def natToDecimalAux : Nat → Nat → List Char
  | 0, _ => []
  | fuel + 1, n =>
    if n < 10 then [Nat.digitChar n]
    else natToDecimalAux fuel (n / 10) ++ [Nat.digitChar (n % 10)]

/-- Decimal rendering of a natural number, as `String(n)` produces for a
non-negative integer. -/
def natToDecimal (n : Nat) : List Char :=
  natToDecimalAux (n + 1) n

/-- JS `String.prototype.padStart(2, '0')`. -/
def padStart2 (l : List Char) : List Char :=
  List.replicate (2 - l.length) '0' ++ l

/-- Embedding of `minutesToTime`: minutes to a (possibly signed) zero-padded `HH:MM`. -/
def minutesToTime (totalMinutes : Int) : String :=
  let absoluteMinutes := totalMinutes.natAbs
  let hours := absoluteMinutes / 60
  let mins := absoluteMinutes % 60
  ⟨(if totalMinutes < 0 then ['-'] else [])
    ++ padStart2 (natToDecimal hours) ++ ':' :: padStart2 (natToDecimal mins)⟩

/-! The normalization pipeline of `src/utils.ts` -/

/-- One scan of the `mergeCoffeeBreaks` inner `for` loop: find the first
Exit→Entry boundary (odd index `i`, `i < length - 2`) whose gap is
positive and under 20 minutes and remove the two boundary stamps;
`none` when no such boundary exists. -/
def coffeeOnce : List Int → Option (List Int)
  | a :: b :: c :: d :: rest =>
    if 0 < c - b ∧ c - b < 20 then some (a :: d :: rest)
    else
      match coffeeOnce (c :: d :: rest) with
      | some l => some (a :: b :: l)
      | none => none
  | _ => none

/-- The `while (restart)` loop of `mergeCoffeeBreaks`, with a fuel argument
for structural recursion.  Each successful scan removes two stamps, so
`l.length` units of fuel always reach the fixed point. -/
def mergeLoop : Nat → List Int → List Int
  | 0, l => l
  | fuel + 1, l =>
    match coffeeOnce l with
    | some l' => mergeLoop fuel l'
    | none => l

/-- Embedding of `mergeCoffeeBreaks`: repeat the scan until no boundary under 20 minutes
remains. -/
def mergeCoffeeBreaks (l : List Int) : List Int :=
  mergeLoop l.length l

/-- One scan of the `removeShortWorkBlocks` inner `for` loop: find the first
Entry/Exit pair (even index) with duration under 10 minutes and remove it;
`none` when every pair lasts at least 10 minutes. -/
def shortOnce : List Int → Option (List Int)
  | a :: b :: rest =>
    if b - a < 10 then some rest
    else
      match shortOnce rest with
      | some l => some (a :: b :: l)
      | none => none
  | _ => none

/-- The `while (restart)` loop of `removeShortWorkBlocks`, with a fuel
argument for structural recursion. -/
def shortLoop : Nat → List Int → List Int
  | 0, l => l
  | fuel + 1, l =>
    match shortOnce l with
    | some l' => shortLoop fuel l'
    | none => l

/-- Embedding of `removeShortWorkBlocks`: repeat until every pair lasts at least 10
minutes. -/
def removeShortWorkBlocks (l : List Int) : List Int :=
  shortLoop l.length l

/-- The duplicate-read collapse of `processTimeEntries` step 3 (and of
`processRawTimestampsToColumns` step 3): starting from the kept element
`last`, drop each following element closer than 5 minutes to the last kept
one.  This is the in-place `splice(i+1, 1); i--` loop. -/
def dedupFrom (last : Int) : List Int → List Int
  | [] => []
  | y :: ys => if y - last < 5 then dedupFrom last ys else y :: dedupFrom y ys

/-- Duplicate-read collapse over a whole list. -/
def dedup5 : List Int → List Int
  | [] => []
  | x :: xs => x :: dedupFrom x xs

/-- JS `Array.prototype.sort((a, b) => a - b)`: the ascending reordering of the
values.  Insertion sort yields the same list because sorted permutations of
the same values coincide over a linear order. -/
def sortMins (l : List Int) : List Int :=
  l.insertionSort (fun a b => a ≤ b)

/-- Embedding of `processTimeEntries` from `src/utils.ts`: parse and drop invalid punches,
sort, collapse near duplicates, merge coffee breaks, drop noise blocks. -/
def processTimeEntries (entry1 exit1 entry2 exit2 entry3 exit3 : String) : List Int :=
  removeShortWorkBlocks (mergeCoffeeBreaks (dedup5 (sortMins
    ([entry1, exit1, entry2, exit2, entry3, exit3].filterMap timeToMinutes))))

/-- The six table columns produced by the normalization helpers. -/
structure SixCols where
  entry1 : String
  exit1 : String
  entry2 : String
  exit2 : String
  entry3 : String
  exit3 : String
  deriving DecidableEq, Repr

/-- Column `i` of a processed minute list: `mins[i]` rendered via
`minutesToTime`, or `''` when absent. -/
def colStr (mins : List Int) (i : Nat) : String :=
  match mins.get? i with
  | some v => minutesToTime v
  | none => ""

/-- Map a processed minute list onto the six columns. -/
def colsOf (mins : List Int) : SixCols :=
  { entry1 := colStr mins 0, exit1 := colStr mins 1
    entry2 := colStr mins 2, exit2 := colStr mins 3
    entry3 := colStr mins 4, exit3 := colStr mins 5 }

/-- The raw-timestamp pipeline of `processRawTimestampsToColumns` before the
column mapping (steps 1–5, identical to `processTimeEntries`). -/
def processRawList (raw : List String) : List Int :=
  removeShortWorkBlocks (mergeCoffeeBreaks (dedup5 (sortMins
    (raw.filterMap timeToMinutes))))

/-- Embedding of `processRawTimestampsToColumns` from `src/utils.ts`. -/
def processRawTimestampsToColumns (rawTimestamps : List String) : SixCols :=
  colsOf (processRawList rawTimestamps)

/-- Embedding of `normalizeAndSortRow` from `src/utils.ts`. -/
def normalizeAndSortRow (entry1 exit1 entry2 exit2 entry3 exit3 : String) : SixCols :=
  colsOf (processTimeEntries entry1 exit1 entry2 exit2 entry3 exit3)

/-- The totalling loop of `calculateDailyMinutes`: sum `exit − entry` over
the even/odd pairs with `exit > entry`; an unpaired trailing stamp is
ignored (the `loopLimit` adjustment). -/
def sumPairs : List Int → Int
  | a :: b :: rest => (if b > a then b - a else 0) + sumPairs rest
  | _ => 0

/-- Embedding of `calculateDailyMinutes` from `src/utils.ts`. -/
def calculateDailyMinutes (entry1 exit1 entry2 exit2 entry3 exit3 : String) : Int :=
  sumPairs (processTimeEntries entry1 exit1 entry2 exit2 entry3 exit3)

/-- The running maximum of the Exit→Entry gaps inspected by the lunch checks
of `getLaborWarnings` (odd index `i`, `i < length - 1`), starting from 0. -/
def maxBreakGap : List Int → Int
  | _ :: b :: c :: rest => max (c - b) (maxBreakGap (c :: rest))
  | _ => 0

/-- Embedding of `getLaborWarnings` from `src/utils.ts`.  The source also computes a
`hasValidLunch` flag (some gap of at least 60 minutes) inside the lunch
block but never reads it; only `maxInterval` feeds the emitted warnings. -/
def getLaborWarnings (entry1 exit1 entry2 exit2 entry3 exit3 : String)
    (totalMinutesWorked : Int) : List String :=
  let rawMins := [entry1, exit1, entry2, exit2, entry3, exit3].filterMap timeToMinutes
  let w1 := if rawMins.length > 0 ∧ rawMins.length % 2 ≠ 0 then
      ["Batidas Ímpares (falta entrada ou saída)"] else []
  let w2 := if totalMinutesWorked > 12 * 60 then ["Jornada excede 12 horas"] else []
  let processed := processTimeEntries entry1 exit1 entry2 exit2 entry3 exit3
  let maxInterval := maxBreakGap processed
  let w3 := if 4 ≤ processed.length ∧ maxInterval > 150 then
      ["Intervalo muito longo (>2h30)"] else []
  let w4 := if 4 ≤ processed.length ∧ totalMinutesWorked > 360 ∧ maxInterval < 30 then
      ["Sem intervalo de almoço adequado"] else []
  w1 ++ w2 ++ w3 ++ w4

/-- Embedding of `calculateBalance` from `src/utils.ts`. -/
def calculateBalance (workedMinutes targetMinutes : Int) (isDayOffOrAboned : Bool) : Int :=
  if isDayOffOrAboned then workedMinutes
  else workedMinutes - targetMinutes

/-- Adjacent values spaced by at least 5 minutes — the relation maintained
by the duplicate-read collapse and preserved by the later pipeline stages. -/
def gap5 (a b : Int) : Prop := a + 5 ≤ b

instance : IsTrans Int gap5 :=
  ⟨fun a b c hab hbc => by unfold gap5 at *; omega⟩

/-- The six columns of a `SixCols` record, in table order. -/
def colsList (c : SixCols) : List String :=
  [c.entry1, c.exit1, c.entry2, c.exit2, c.entry3, c.exit3]

/-- The nonempty columns of a `SixCols` record, in table order. -/
def nonemptyCols (c : SixCols) : List String :=
  (colsList c).filter (fun s => !(s == ""))

/-! Calendar model

JS `Date` follows the proleptic Gregorian calendar; a local calendar date is
modelled by its day count since 1970-01-01 (the value of
`getTime() / 86400000` rounded down, for a clock with a fixed UTC offset).
`daysFromCivil` and `civilFromDays` are the standard Gregorian conversions
on that day count.  JS `%` on numbers truncates toward zero (`Int.tmod`)
and `Math.floor` of a quotient is flooring division (`Int.fdiv`). -/

/-- Day count since 1970-01-01 of the Gregorian date `(y, m, d)` with
`m ∈ 1..12`; `d` may lie outside the month and is carried linearly, exactly
as the `Date` constructor normalizes day overflow. -/
def daysFromCivil (y m d : Int) : Int :=
  let y2 := if m ≤ 2 then y - 1 else y
  let era := y2.fdiv 400
  let yoe := y2 - era * 400
  let mp := (m + 9).emod 12
  let doy := (153 * mp + 2).fdiv 5 + d - 1
  let doe := yoe * 365 + yoe.fdiv 4 - yoe.fdiv 100 + doy
  era * 146097 + doe - 719468

/-- Gregorian date `(y, m, d)` (with `m ∈ 1..12`) of a day count. -/
def civilFromDays (z : Int) : Int × Int × Int :=
  let z2 := z + 719468
  let era := z2.fdiv 146097
  let doe := z2 - era * 146097
  let yoe := (doe - doe.fdiv 1460 + doe.fdiv 36524 - doe.fdiv 146096).fdiv 365
  let y := yoe + era * 400
  let doy := doe - (365 * yoe + yoe.fdiv 4 - yoe.fdiv 100)
  let mp := (5 * doy + 2).fdiv 153
  let d := doy - (153 * mp + 2).fdiv 5 + 1
  let m := if mp < 10 then mp + 3 else mp - 9
  (if m ≤ 2 then y + 1 else y, m, d)

/-- Two-digit years are mapped to 19xx by the `Date(year, month, day)`
constructor. -/
def jsYearAdjust (y : Int) : Int :=
  if 0 ≤ y ∧ y ≤ 99 then y + 1900 else y

/-- Day count of `new Date(year, monthIndex, day)` (month index 0-based and
normalized with year carry, day carried linearly). -/
def jsDateDays (year monthIndex day : Int) : Int :=
  let y := jsYearAdjust year + monthIndex.fdiv 12
  let m := monthIndex.emod 12 + 1
  daysFromCivil y m day

/-- JS `Date.prototype.getDay`: 0 = Sunday … 6 = Saturday.  Day 0
(1970-01-01) was a Thursday. -/
def getDay (z : Int) : Int :=
  (z + 4).emod 7

/-- Embedding of `getEasterDate` (Meeus/Jones/Butcher algorithm) from
`src/utils.ts`, returned as a day count. -/
def getEasterDate (year : Int) : Int :=
  let a := year.tmod 19
  let b := year.fdiv 100
  let c := year.tmod 100
  let d := b.fdiv 4
  let e := b.tmod 4
  let f := (b + 8).fdiv 25
  let g := (b - f + 1).fdiv 3
  let h := (19 * a + b - d - g + 15).tmod 30
  let i := c.fdiv 4
  let k := c.tmod 4
  let l := (32 + 2 * e + 2 * i - h - k).tmod 7
  let m := (a + 11 * h + 22 * l).fdiv 451
  let month := (h + l - 7 * m + 114).fdiv 31 - 1
  let day := (h + l - 7 * m + 114).tmod 31 + 1
  jsDateDays year month day

/-- A holiday record (`Holiday` in `src/types.ts`): fixed day/month, with an
optional year restriction (`none` recurs every year). -/
structure Holiday where
  id : String
  day : Int
  month : Int
  name : String
  year : Option Int := none
  deriving DecidableEq

/-- Embedding of `getStandardHolidays` from `src/utils.ts`: the fixed
national/São Paulo holidays plus the four Easter-derived movable feasts
(`addDays` is plain day-count arithmetic). -/
def getStandardHolidays (year : Int) : List Holiday :=
  let easterZ := getEasterDate year
  let movable (idStr nm : String) (z : Int) : Holiday :=
    let c := civilFromDays z
    { id := idStr, day := c.2.2, month := c.2.1, name := nm, year := some year }
  [ { id := "sys-1", day := 1, month := 1, name := "Confraternização Universal" },
    { id := "sys-2", day := 25, month := 1, name := "Aniversário de São Paulo" },
    { id := "sys-3", day := 21, month := 4, name := "Tiradentes" },
    { id := "sys-4", day := 1, month := 5, name := "Dia do Trabalho" },
    { id := "sys-5", day := 9, month := 7, name := "Revolução Constitucionalista" },
    { id := "sys-6", day := 7, month := 9, name := "Independência do Brasil" },
    { id := "sys-7", day := 12, month := 10, name := "Nossa Sra. Aparecida" },
    { id := "sys-8", day := 2, month := 11, name := "Finados" },
    { id := "sys-9", day := 15, month := 11, name := "Proclamação da República" },
    { id := "sys-10", day := 20, month := 11, name := "Dia da Consciência Negra" },
    { id := "sys-11", day := 25, month := 12, name := "Natal" } ]
  ++ [ movable "sys-easter" "Páscoa" easterZ,
       movable "sys-carnival" "Carnaval" (easterZ - 47),
       movable "sys-goodFriday" "Sexta-feira Santa" (easterZ - 2),
       movable "sys-corpus" "Corpus Christi" (easterZ + 60) ]

/-- Embedding of `getHolidayName` from `src/utils.ts`: custom holidays win,
then the standard table; `none` when the date is no holiday. -/
def getHolidayName (day month year : Int) (customHolidays : List Holiday) : Option String :=
  match customHolidays.find? (fun h =>
      h.day == day && h.month == month && (h.year == none || h.year == some year)) with
  | some h => some h.name
  | none =>
    match (getStandardHolidays year).find? (fun h => h.day == day && h.month == month) with
    | some h => some h.name
    | none => none

/-! The calculation pass of `components/TimecardEditor.tsx` -/

/-- The tri-state Sunday override (`sundayMode` in `src/types.ts`). -/
inductive SundayMode
  | auto
  | extra
  | off
  deriving DecidableEq

/-- An editable day row (`TimeRow` in `src/types.ts`).  Optional booleans of
the source are `Bool` here (absent ≘ `false`); the untouched OCR-diff
fields (`originalEntry1` …) and display-only balance strings are omitted
since no embedded operation reads or writes them. -/
structure TimeRow where
  id : String
  day : String
  date : String
  dayOfWeek : String
  dayLabel : Option String
  entry1 : String
  exit1 : String
  entry2 : String
  exit2 : String
  entry3 : String
  exit3 : String
  totalWorked : String
  isWeekend : Bool
  isAboned : Bool
  isSundayNoRest : Bool
  sundayMode : Option SundayMode
  isCompensatoryRest : Bool
  manuallyDisabledDsr : Bool
  forceDsr : Bool
  _calculatedNormal : Int
  _calculatedSpecial : Int
  notes : String
  deriving DecidableEq

/-- The per-employee weekly schedule (`WeeklySchedule` in `src/types.ts`),
indexed 0 = Sunday … 6 = Saturday. -/
structure WeeklySchedule where
  sun : String
  mon : String
  tue : String
  wed : String
  thu : String
  fri : String
  sat : String
  deriving DecidableEq

/-- Index access `emp.schedule[dayIndex]`. -/
def WeeklySchedule.get (s : WeeklySchedule) (dayIndex : Int) : String :=
  if dayIndex = 0 then s.sun
  else if dayIndex = 1 then s.mon
  else if dayIndex = 2 then s.tue
  else if dayIndex = 3 then s.wed
  else if dayIndex = 4 then s.thu
  else if dayIndex = 5 then s.fri
  else if dayIndex = 6 then s.sat
  else ""

/-- JS `String.prototype.toUpperCase` on the ASCII letters (sufficient for
the `FOLGA` label test). -/
def jsToUpper (c : Char) : Char :=
  if 'a' ≤ c ∧ c ≤ 'z' then Char.ofNat (c.toNat - 32) else c

/-- Whether `pat` occurs contiguously in the second list, starting at its
head. -/
def startsWithSeq : List Char → List Char → Bool
  | [], _ => true
  | _ :: _, [] => false
  | p :: ps, c :: cs => p = c && startsWithSeq ps cs

/-- JS `String.prototype.includes`: whether `pat` occurs contiguously
anywhere in the text. -/
def containsSeq (pat : List Char) : List Char → Bool
  | [] => startsWithSeq pat []
  | c :: rest => startsWithSeq pat (c :: rest) || containsSeq pat rest

/-- A row enriched by the first pass of the calculation `useEffect`
(the `_temp…` fields carried between the passes).  `orig` is the spread row
(with `isSundayNoRest`/`isCompensatoryRest` reset when the day number
parsed); `dayParsed` records whether `parseInt(row.day)` was a number — it
governs the week-map insertion, which the source performs inside the
non-`NaN` branch. -/
structure ERow where
  orig : TimeRow
  _tempMins : Int
  _tempTarget : Int
  _tempIsFalta : Bool
  _tempWeek : Int
  _tempDayIndex : Int
  _tempIsHoliday : Bool
  _isCompensatoryRest : Bool
  dayParsed : Bool
  isExplicitFolga : Bool
  deriving DecidableEq

/-- First pass of the calculation `useEffect`, per row: parse the day
number, derive weekday index, holiday status, week number, target minutes,
worked minutes and candidate-fault status, and reset the DSR flags.

The week number embeds
`Math.ceil(((millis / 86400000) + onejan.getDay() + 1) / 7)`: with the row
date anchored at 12:00, `millis / 86400000` is the whole-day difference
plus a fraction strictly between 0 and 1, so the ceiling equals
`fdiv (Δdays + getDay onejan + 1) 7 + 1`. -/
def enrichRow (year month : Int) (customHolidays : List Holiday)
    (schedule : WeeklySchedule) (row : TimeRow) : ERow :=
  match jsParseInt row.day.data with
  | none =>
    { orig := row, _tempMins := 0, _tempTarget := 0, _tempIsFalta := false,
      _tempWeek := 0, _tempDayIndex := 0, _tempIsHoliday := false,
      _isCompensatoryRest := false, dayParsed := false, isExplicitFolga := false }
  | some dayNum =>
    let z := jsDateDays year (month - 1) dayNum
    let dayIndex := getDay z
    let isHoliday := (getHolidayName dayNum month year customHolidays).isSome
    let onejan := jsDateDays year 0 1
    let weekNum := (z - onejan + getDay onejan + 1).fdiv 7 + 1
    let schedStr := schedule.get dayIndex
    let targetTimeStr := if schedStr = "" then "08:00" else schedStr
    let targetMinutes := (timeToMinutes targetTimeStr).getD 0
    let dailyMins := calculateDailyMinutes row.entry1 row.exit1 row.entry2
      row.exit2 row.entry3 row.exit3
    let label := (row.dayLabel.getD "").data.map jsToUpper
    let isExplicitFolga := containsSeq "FOLGA".data label
    let isFalta := decide (0 < targetMinutes) && decide (dailyMins = 0)
      && !isHoliday && !row.isAboned && !isExplicitFolga
    { orig := { row with isSundayNoRest := false, isCompensatoryRest := false },
      _tempMins := dailyMins, _tempTarget := targetMinutes,
      _tempIsFalta := isFalta, _tempWeek := weekNum, _tempDayIndex := dayIndex,
      _tempIsHoliday := isHoliday, _isCompensatoryRest := false,
      dayParsed := true, isExplicitFolga := isExplicitFolga }

/-- Per-week accumulator of the calculation `useEffect` (`weeksMap` values).
The source also accumulates a `rows` array and a `workedDays` counter that
no later code reads; they are omitted.  `sundayRow` is declared and read by
the second pass but never assigned anywhere in the source, so it stays
`none` in every week. -/
structure WeekData where
  hasHoliday : Bool
  holidayIsSunday : Bool
  hasFault : Bool
  sundayRow : Option ERow
  deriving DecidableEq

/-- A fresh `weeksMap` entry. -/
def emptyWeekData : WeekData :=
  { hasHoliday := false, holidayIsSunday := false, hasFault := false,
    sundayRow := none }

/-- Update the value stored under week `w` of the insertion-ordered
association list embedding `weeksMap`. -/
def updateWeek (w : Int) (f : WeekData → WeekData) :
    List (Int × WeekData) → List (Int × WeekData)
  | [] => []
  | (k, d) :: rest =>
    if k = w then (k, f d) :: rest else (k, d) :: updateWeek w f rest

/-- JS `weeksMap.has(weekNum)`. -/
def hasWeek (ws : List (Int × WeekData)) (w : Int) : Bool :=
  ws.any (fun p => p.1 == w)

/-- The `weeksMap` bookkeeping the first pass performs for one row:
insert the week on first sight, then fold in the row's holiday flags. -/
def addRowToWeeks (ws : List (Int × WeekData)) (r : ERow) : List (Int × WeekData) :=
  if r.dayParsed then
    let ws1 := if hasWeek ws r._tempWeek then ws else ws ++ [(r._tempWeek, emptyWeekData)]
    updateWeek r._tempWeek (fun d =>
      { d with hasHoliday := d.hasHoliday || r._tempIsHoliday,
               holidayIsSunday := d.holidayIsSunday
                 || (r._tempIsHoliday && r._tempDayIndex == 0) }) ws1
  else ws

/-- Replace the first list element satisfying `p` (the mutation performed on
the row object found by `adjustedRows.find`). -/
def updateFirst {α : Type} (p : α → Bool) (f : α → α) : List α → List α
  | [] => []
  | r :: rest => if p r then f r :: rest else r :: updateFirst p f rest

/-- Second pass (DSR logic) of the calculation `useEffect` for one week:
when the week's `sundayRow` worked, convert the first non-Sunday
candidate-fault row of the same week to compensatory rest (unless the user
disabled it), else flag the Sunday row.  Because `sundayRow` is never
assigned, the `none` branch is the one that always runs. -/
def pass2Week (adjustedRows : List ERow) (weekData : WeekData) : List ERow :=
  match weekData.sundayRow with
  | none => adjustedRows
  | some sr =>
    if 0 < sr._tempMins then
      let isCand := fun (r : ERow) =>
        r._tempWeek == sr._tempWeek && r._tempIsFalta && !(r._tempDayIndex == 0)
      match adjustedRows.find? isCand with
      | some restCandidate =>
        if !restCandidate.orig.manuallyDisabledDsr then
          updateFirst isCand
            (fun r => { r with _tempIsFalta := false, _isCompensatoryRest := true })
            adjustedRows
        else adjustedRows
      | none =>
        updateFirst (fun r => r.orig.id == sr.orig.id)
          (fun r => { r with orig := { r.orig with isSundayNoRest := true } })
          adjustedRows
    else adjustedRows

/-- The `is100PercentDay` decision of the third pass. -/
def is100PercentDay (r : ERow) : Bool :=
  match r.orig.sundayMode.getD SundayMode.auto with
  | SundayMode.extra => true
  | SundayMode.off => false
  | SundayMode.auto =>
    r._tempIsHoliday || (r._tempDayIndex == 0 && r._tempTarget == 0)
      || r.orig.isSundayNoRest

/-- Result of the third pass for one row: the final row plus its
contributions to the four monthly accumulators (zero when the row is
aboned, exactly as the `if (!row.isAboned)` guards accumulate). -/
structure FinalOut where
  row : TimeRow
  normalContrib : Int
  specialContrib : Int
  deficitContrib : Int
  faltasContrib : Int
  deriving DecidableEq

/-- Third pass (`Calc Finals`) of the calculation `useEffect` for one row. -/
def calcFinalRow (r : ERow) : FinalOut :=
  let dailyMins := r._tempMins
  let targetMinutes := r._tempTarget
  let p := is100PercentDay r
  let rowSpecialExtras := if p then dailyMins else 0
  let rowNormalExtras :=
    if p then 0
    else if targetMinutes < dailyMins then dailyMins - targetMinutes else 0
  let rowDeficit :=
    if r._tempIsFalta then 0
    else if dailyMins < targetMinutes ∧ 0 < targetMinutes ∧ ¬r._tempIsHoliday
        ∧ ¬r._isCompensatoryRest then targetMinutes - dailyMins
    else 0
  { row := { r.orig with
      isCompensatoryRest := r._isCompensatoryRest,
      totalWorked := minutesToTime dailyMins,
      _calculatedNormal := rowNormalExtras,
      _calculatedSpecial := rowSpecialExtras },
    normalContrib := if r.orig.isAboned then 0 else rowNormalExtras,
    specialContrib := if r.orig.isAboned then 0 else rowSpecialExtras,
    deficitContrib := if r.orig.isAboned then 0 else rowDeficit,
    faltasContrib := if r._tempIsFalta && !r.orig.isAboned then 1 else 0 }

/-- The monthly summary (`EmployeeSession.summary` in `src/types.ts`). -/
structure CalcSummary where
  totalExtrasNormal : Int
  totalExtrasSpecial : Int
  totalDeficitMinutes : Int
  totalFaltasDays : Int
  totalDsrDescontado : Int
  deriving DecidableEq

/-- Result of the full recomputation for one employee. -/
structure CalcResult where
  rows : List TimeRow
  summary : CalcSummary
  deriving DecidableEq

/-- The whole calculation `useEffect` of `components/TimecardEditor.tsx`
for one employee: first pass (enrichment and `weeksMap`), second pass
(weekly DSR conversion), the `forceDsr` override and `hasFault` marking,
third pass (final rows and accumulators), and the weekly DSR-loss fold. -/
def recompute (year month : Int) (customHolidays : List Holiday)
    (schedule : WeeklySchedule) (rows : List TimeRow) : CalcResult :=
  let enrichedRows := rows.map (enrichRow year month customHolidays schedule)
  let weeksMap := enrichedRows.foldl addRowToWeeks []
  let adjustedRows := weeksMap.foldl (fun rs p => pass2Week rs p.2) enrichedRows
  let adjustedRows2 := adjustedRows.map
    (fun r => if r.orig.forceDsr then { r with _tempIsFalta := false } else r)
  let weeksMap2 := adjustedRows2.foldl
    (fun ws r =>
      if r._tempIsFalta then updateWeek r._tempWeek (fun d => { d with hasFault := true }) ws
      else ws)
    weeksMap
  let finals := adjustedRows2.map calcFinalRow
  let accDsrDescontado := weeksMap2.foldl
    (fun acc p =>
      if p.2.hasFault then
        acc + 1 + (if p.2.hasHoliday && !p.2.holidayIsSunday then 1 else 0)
      else acc)
    0
  { rows := finals.map FinalOut.row,
    summary :=
      { totalExtrasNormal := (finals.map FinalOut.normalContrib).sum,
        totalExtrasSpecial := (finals.map FinalOut.specialContrib).sum,
        totalDeficitMinutes := (finals.map FinalOut.deficitContrib).sum,
        totalFaltasDays := (finals.map FinalOut.faltasContrib).sum,
        totalDsrDescontado := accDsrDescontado } }

/-- Embedding of `cycleSundayMode` from `components/TimecardEditor.tsx`,
restricted to the row it updates: an unset mode reads as `auto`, and the
row receives the next mode in the cycle auto → extra → off → auto. -/
def nextSundayMode : SundayMode → SundayMode
  | SundayMode.auto => SundayMode.extra
  | SundayMode.extra => SundayMode.off
  | SundayMode.off => SundayMode.auto

/-- The update `cycleSundayMode` applies to the targeted row. -/
def cycleSundayMode (row : TimeRow) : TimeRow :=
  { row with sundayMode := some (nextSundayMode (row.sundayMode.getD SundayMode.auto)) }

/-! Spec-side weekly DSR aggregation (for comparison with the code) -/

/-- The distinct week numbers of the parsed rows, in order of first
appearance. -/
def weekKeys (enriched : List ERow) : List Int :=
  enriched.foldl
    (fun ks r =>
      if r.dayParsed && !ks.contains r._tempWeek then ks ++ [r._tempWeek] else ks)
    []

/-- Week `k` contains an unresolved fault: some row of the week is a
candidate fault not overridden by `forceDsr`. -/
def weekHasUnresolvedFault (enriched : List ERow) (k : Int) : Bool :=
  enriched.any (fun r => r._tempWeek == k && r._tempIsFalta && !r.orig.forceDsr)

/-- Week `k` contains a holiday. -/
def weekHasHoliday (enriched : List ERow) (k : Int) : Bool :=
  enriched.any (fun r => r.dayParsed && r._tempWeek == k && r._tempIsHoliday)

/-- Week `k` contains a holiday falling on a Sunday. -/
def weekHasSundayHoliday (enriched : List ERow) (k : Int) : Bool :=
  enriched.any (fun r =>
    r.dayParsed && r._tempWeek == k && r._tempIsHoliday && r._tempDayIndex == 0)

/-- Week `k` contains a holiday NOT falling on a Sunday. -/
def weekHasNonSundayHoliday (enriched : List ERow) (k : Int) : Bool :=
  enriched.any (fun r =>
    r.dayParsed && r._tempWeek == k && r._tempIsHoliday && !(r._tempDayIndex == 0))

/-- Modelled from the amended claim: every week with an unresolved fault
loses one weekly-rest day, plus one more when the week has a holiday and no
holiday of the week falls on Sunday. -/
def dsrSpec (enriched : List ERow) : Int :=
  ((weekKeys enriched).map (fun k =>
    if weekHasUnresolvedFault enriched k then
      1 + (if weekHasHoliday enriched k && !weekHasSundayHoliday enriched k then 1 else 0)
    else 0)).sum

/-- Modelled from the claim as written: every week with an unresolved fault
loses one weekly-rest day, plus one more when the week contains a holiday
that does not fall on Sunday. -/
def dsrClaimSpec (enriched : List ERow) : Int :=
  ((weekKeys enriched).map (fun k =>
    if weekHasUnresolvedFault enriched k then
      1 + (if weekHasNonSundayHoliday enriched k then 1 else 0)
    else 0)).sum

/-- A row with the given id, day number and first punch pair; every other
field blank and every optional flag unset. -/
def mkRow (idStr dayStr e1 x1 : String) : TimeRow :=
  { id := idStr, day := dayStr, date := "", dayOfWeek := "", dayLabel := none,
    entry1 := e1, exit1 := x1, entry2 := "", exit2 := "", entry3 := "", exit3 := "",
    totalWorked := "", isWeekend := false, isAboned := false,
    isSundayNoRest := false, sundayMode := none, isCompensatoryRest := false,
    manuallyDisabledDsr := false, forceDsr := false,
    _calculatedNormal := 0, _calculatedSpecial := 0, notes := "" }

/-- The default weekly schedule a new employee receives in
`TimecardEditor.tsx`: rest on Sunday and Saturday, 8 hours on weekdays. -/
def defaultSchedule : WeeklySchedule :=
  { sun := "00:00", mon := "08:00", tue := "08:00", wed := "08:00",
    thu := "08:00", fri := "08:00", sat := "00:00" }

/-! Theorems -/

theorem coffeeOnce_length : ∀ {l l' : List Int}, coffeeOnce l = some l' →
    l'.length + 2 = l.length := by
  intro l
  induction l using coffeeOnce.induct with
  | case1 a b c d rest h =>
    intro l' hl
    simp only [coffeeOnce, if_pos h] at hl
    obtain rfl := Option.some.inj hl
    simp
  | case2 a b c d rest h l hrec ih =>
    intro l' hl
    simp only [coffeeOnce, if_neg h, hrec] at hl
    obtain rfl := Option.some.inj hl
    have := ih hrec
    simp only [List.length_cons] at this ⊢
    omega
  | case3 a b c d rest h hrec =>
    intro l' hl
    simp only [coffeeOnce, if_neg h, hrec] at hl
    exact Option.noConfusion hl
  | case4 l h =>
    intro l' hl
    have hnone : coffeeOnce l = none := by
      cases l with
      | nil => rfl
      | cons a t => cases t with
        | nil => rfl
        | cons b t2 => cases t2 with
          | nil => rfl
          | cons c t3 => cases t3 with
            | nil => rfl
            | cons d rest => exact absurd rfl (h a b c d rest)
    rw [hnone] at hl
    exact Option.noConfusion hl


theorem shortOnce_length : ∀ {l l' : List Int}, shortOnce l = some l' →
    l'.length + 2 = l.length := by
  intro l
  induction l using shortOnce.induct with
  | case1 a b rest h =>
    intro l' hl
    simp only [shortOnce, if_pos h] at hl
    obtain rfl := Option.some.inj hl
    simp
  | case2 a b rest h l hrec ih =>
    intro l' hl
    simp only [shortOnce, if_neg h, hrec] at hl
    obtain rfl := Option.some.inj hl
    have := ih hrec
    simp only [List.length_cons] at this ⊢
    omega
  | case3 a b rest h hrec =>
    intro l' hl
    simp only [shortOnce, if_neg h, hrec] at hl
    exact Option.noConfusion hl
  | case4 l h =>
    intro l' hl
    have hnone : shortOnce l = none := by
      cases l with
      | nil => rfl
      | cons a t => cases t with
        | nil => rfl
        | cons b t2 => exact absurd rfl (h a b t2)
    rw [hnone] at hl
    exact Option.noConfusion hl


/-! Parser range and easy claims -/

/-- Any value returned by `timeToMinutes` comes from the guarded branch
`hours * 60 + minutes` with `0 ≤ hours ≤ 24` and `0 ≤ minutes ≤ 59`. -/
theorem timeToMinutes_range {s : String} {v : Int}
    (h : timeToMinutes s = some v) : 0 ≤ v ∧ v ≤ 1499 := by
  unfold timeToMinutes timeToMinutesCore at h
  split at h
  · exact Option.noConfusion h
  split at h
  · exact Option.noConfusion h
  dsimp only at h
  split at h <;> try exact Option.noConfusion h
  split at h <;> try exact Option.noConfusion h
  split at h
  · exact Option.noConfusion h
  · obtain rfl := Option.some.inj h
    rename_i hcond
    push_neg at hcond
    obtain ⟨h1, h2, h3, h4⟩ := hcond
    constructor <;> nlinarith

/-- C6 counterexample: `timeToMinutes` accepts an hour value of 24, so
`"24:30"` parses to 1470, which exceeds 1439. -/
theorem timeToMinutes_above_1439 :
    timeToMinutes "24:30" = some 1470 ∧ (1439 : Int) < 1470 := by
  constructor
  · decide
  · decide

/-- C6 (amended): whenever `timeToMinutes` returns a value, it is an
integer in `[0, 1499]` (hours up to 24 are accepted, minutes up to 59). -/
theorem timeToMinutes_in_range {s : String} {v : Int}
    (h : timeToMinutes s = some v) : 0 ≤ v ∧ v ≤ 1499 :=
  timeToMinutes_range h

/-- Witness for `timeToMinutes_in_range` at the input `"23:59"`. -/
theorem timeToMinutes_in_range_witness :
    timeToMinutes "23:59" = some 1439 ∧ (0 : Int) ≤ 1439 ∧ (1439 : Int) ≤ 1499 :=
  ⟨by decide, timeToMinutes_in_range (s := "23:59") (v := 1439) (by decide)⟩

/-- C3: on a designated day-off, `calculateBalance` returns the worked
minutes unchanged — the target is never subtracted. -/
theorem calculateBalance_dayOff (workedMinutes targetMinutes : Int)
    (hw : 0 ≤ workedMinutes) (ht : 0 ≤ targetMinutes) :
    calculateBalance workedMinutes targetMinutes true = workedMinutes := rfl

/-- Witness for `calculateBalance_dayOff` at worked 480, target 360. -/
theorem calculateBalance_dayOff_witness :
    calculateBalance 480 360 true = 480 :=
  calculateBalance_dayOff 480 360 (by decide) (by decide)

/-- C7: the punches 08:00, 10:00, 10:15, 12:00 normalize to the single
pair 08:00–12:00 (the 15-minute gap is fused) and total 240 minutes. -/
theorem coffee_break_merge_example :
    normalizeAndSortRow "08:00" "10:00" "10:15" "12:00" "" ""
        = ⟨"08:00", "12:00", "", "", "", ""⟩
    ∧ calculateDailyMinutes "08:00" "10:00" "10:15" "12:00" "" "" = 240 := by
  constructor
  · decide
  · decide

/-- C10: `cycleSundayMode` follows the 3-cycle auto → extra → off → auto on
the effective mode (an unset mode reads as `auto`), so three applications
only rewrite `sundayMode` to its normalized original value and change no
other field of the row. -/
theorem cycleSundayMode_three (row : TimeRow) :
    cycleSundayMode (cycleSundayMode (cycleSundayMode row))
      = { row with sundayMode := some (row.sundayMode.getD SundayMode.auto) } := by
  cases hm : row.sundayMode with
  | none => simp [cycleSundayMode, hm, nextSundayMode]
  | some m => cases m <;> simp [cycleSundayMode, hm, nextSundayMode]

/-- C8: a day is a 100%-premium day exactly when the effective Sunday mode
is `extra`, or it is `auto` and the day is a holiday, a zero-target Sunday,
or flagged Sunday-worked-without-rest; when premium all worked minutes are
special overtime and normal overtime is 0, otherwise normal overtime is
`max 0 (worked − target)` and special overtime is 0. -/
theorem is100PercentDay_spec (r : ERow) :
    (is100PercentDay r = true ↔
      (r.orig.sundayMode.getD SundayMode.auto = SundayMode.extra
        ∨ (r.orig.sundayMode.getD SundayMode.auto = SundayMode.auto
            ∧ (r._tempIsHoliday = true
                ∨ (r._tempDayIndex = 0 ∧ r._tempTarget = 0)
                ∨ r.orig.isSundayNoRest = true))))
    ∧ (calcFinalRow r).row._calculatedSpecial
        = (if is100PercentDay r then r._tempMins else 0)
    ∧ (calcFinalRow r).row._calculatedNormal
        = (if is100PercentDay r then 0 else max 0 (r._tempMins - r._tempTarget)) := by
  refine ⟨?_, ?_, ?_⟩
  · unfold is100PercentDay
    cases hm : r.orig.sundayMode.getD SundayMode.auto with
    | auto => simp; tauto
    | extra => simp
    | off => simp
  · simp only [calcFinalRow]
  · simp only [calcFinalRow]
    by_cases hp : is100PercentDay r
    · simp [hp]
    · simp only [hp, if_false, Bool.false_eq_true]
      split
      · rename_i hlt
        omega
      · rename_i hlt
        omega

/-- C2 counterexample: a day totalling 435 worked minutes whose largest
break is 45 minutes receives no lunch warning, although 435 > 360 and no
break of at least 60 minutes exists. -/
theorem lunch_warning_counterexample :
    calculateDailyMinutes "08:00" "12:00" "12:45" "16:00" "" "" = 435
    ∧ maxBreakGap (processTimeEntries "08:00" "12:00" "12:45" "16:00" "" "") = 45
    ∧ "Sem intervalo de almoço adequado"
        ∉ getLaborWarnings "08:00" "12:00" "12:45" "16:00" "" "" 435 := by
  refine ⟨by decide, by decide, by decide⟩

/-- C2 (amended): the lunch warning is emitted exactly when at least four
stamps survive normalization, the passed total exceeds 360 minutes, and the
largest normalized break is under 30 minutes. -/
theorem lunch_warning_iff (e1 x1 e2 x2 e3 x3 : String) (total : Int) :
    "Sem intervalo de almoço adequado" ∈ getLaborWarnings e1 x1 e2 x2 e3 x3 total
      ↔ 4 ≤ (processTimeEntries e1 x1 e2 x2 e3 x3).length ∧ 360 < total
          ∧ maxBreakGap (processTimeEntries e1 x1 e2 x2 e3 x3) < 30 := by
  have hne1 : ("Sem intervalo de almoço adequado" : String)
      ≠ "Batidas Ímpares (falta entrada ou saída)" := by decide
  have hne2 : ("Sem intervalo de almoço adequado" : String)
      ≠ "Jornada excede 12 horas" := by decide
  have hne3 : ("Sem intervalo de almoço adequado" : String)
      ≠ "Intervalo muito longo (>2h30)" := by decide
  unfold getLaborWarnings
  simp only [List.mem_append]
  split_ifs with h1 h2 h3 h4 <;>
    simp_all [List.mem_singleton, List.not_mem_nil] <;> tauto

/-! Pipeline invariants (towards idempotence) -/

theorem dedupFrom_chain (last : Int) (ys : List Int) :
    List.Chain' gap5 (last :: dedupFrom last ys) := by
  induction ys generalizing last with
  | nil => simp [dedupFrom]
  | cons y ys ih =>
    by_cases h : y - last < 5
    · simpa [dedupFrom, h] using ih last
    · have hy : gap5 last y := by unfold gap5; omega
      simp only [dedupFrom, if_neg h]
      exact (ih y).cons hy

theorem dedup5_chain (l : List Int) : List.Chain' gap5 (dedup5 l) := by
  cases l with
  | nil => simp [dedup5]
  | cons x xs =>
    simp only [dedup5]
    exact dedupFrom_chain x xs

theorem dedupFrom_eq_self {last : Int} {ys : List Int}
    (h : List.Chain' gap5 (last :: ys)) : dedupFrom last ys = ys := by
  induction ys generalizing last with
  | nil => rfl
  | cons y ys ih =>
    have h1 : gap5 last y := h.rel_head
    have h2 : List.Chain' gap5 (y :: ys) := h.tail
    have hnot : ¬ y - last < 5 := by unfold gap5 at h1; omega
    simp only [dedupFrom, if_neg hnot]
    rw [ih h2]

theorem dedup5_eq_self {l : List Int} (h : List.Chain' gap5 l) : dedup5 l = l := by
  cases l with
  | nil => rfl
  | cons x xs =>
    simp only [dedup5]
    rw [dedupFrom_eq_self h]

theorem dedupFrom_sublist (last : Int) (ys : List Int) : List.Sublist (dedupFrom last ys) ys := by
  induction ys generalizing last with
  | nil => simp [dedupFrom]
  | cons y ys ih =>
    by_cases h : y - last < 5
    · simp only [dedupFrom, if_pos h]
      exact (ih last).cons y
    · simp only [dedupFrom, if_neg h]
      exact (ih y).cons₂ y

theorem dedup5_sublist (l : List Int) : List.Sublist (dedup5 l) l := by
  cases l with
  | nil => simp [dedup5]
  | cons x xs =>
    simp only [dedup5]
    exact (dedupFrom_sublist x xs).cons₂ x

theorem coffeeOnce_sublist : ∀ {l l' : List Int}, coffeeOnce l = some l' → List.Sublist l' l := by
  intro l
  induction l using coffeeOnce.induct with
  | case1 a b c d rest h =>
    intro l' hl
    simp only [coffeeOnce, if_pos h] at hl
    obtain rfl := Option.some.inj hl
    exact (((List.Sublist.refl (d :: rest)).cons c).cons b).cons₂ a
  | case2 a b c d rest h l hrec ih =>
    intro l' hl
    simp only [coffeeOnce, if_neg h, hrec] at hl
    obtain rfl := Option.some.inj hl
    exact ((ih hrec).cons₂ b).cons₂ a
  | case3 a b c d rest h hrec =>
    intro l' hl
    simp only [coffeeOnce, if_neg h, hrec] at hl
    exact Option.noConfusion hl
  | case4 l h =>
    intro l' hl
    have hnone : coffeeOnce l = none := by
      cases l with
      | nil => rfl
      | cons a t => cases t with
        | nil => rfl
        | cons b t2 => cases t2 with
          | nil => rfl
          | cons c t3 => cases t3 with
            | nil => rfl
            | cons d rest => exact absurd rfl (h a b c d rest)
    rw [hnone] at hl
    exact Option.noConfusion hl

theorem shortOnce_sublist : ∀ {l l' : List Int}, shortOnce l = some l' → List.Sublist l' l := by
  intro l
  induction l using shortOnce.induct with
  | case1 a b rest h =>
    intro l' hl
    simp only [shortOnce, if_pos h] at hl
    obtain rfl := Option.some.inj hl
    exact ((List.Sublist.refl rest).cons b).cons a
  | case2 a b rest h l hrec ih =>
    intro l' hl
    simp only [shortOnce, if_neg h, hrec] at hl
    obtain rfl := Option.some.inj hl
    exact ((ih hrec).cons₂ b).cons₂ a
  | case3 a b rest h hrec =>
    intro l' hl
    simp only [shortOnce, if_neg h, hrec] at hl
    exact Option.noConfusion hl
  | case4 l h =>
    intro l' hl
    have hnone : shortOnce l = none := by
      cases l with
      | nil => rfl
      | cons a t => cases t with
        | nil => rfl
        | cons b t2 => exact absurd rfl (h a b t2)
    rw [hnone] at hl
    exact Option.noConfusion hl

theorem mergeLoop_sublist : ∀ (fuel : Nat) (l : List Int), List.Sublist (mergeLoop fuel l) l := by
  intro fuel
  induction fuel with
  | zero => intro l; exact List.Sublist.refl l
  | succ n ih =>
    intro l
    simp only [mergeLoop]
    split
    · rename_i l' h
      exact (ih l').trans (coffeeOnce_sublist h)
    · exact List.Sublist.refl l

theorem coffeeOnce_mergeLoop : ∀ (fuel : Nat) (l : List Int), l.length ≤ fuel →
    coffeeOnce (mergeLoop fuel l) = none := by
  intro fuel
  induction fuel with
  | zero =>
    intro l hl
    have hnil : l = [] := List.length_eq_zero.mp (by omega)
    subst hnil; rfl
  | succ n ih =>
    intro l hl
    simp only [mergeLoop]
    split
    · rename_i l' h
      exact ih l' (by have := coffeeOnce_length h; omega)
    · rename_i h
      exact h

theorem mergeLoop_none {l : List Int} (h : coffeeOnce l = none) :
    ∀ fuel, mergeLoop fuel l = l := by
  intro fuel
  cases fuel with
  | zero => rfl
  | succ n => simp only [mergeLoop, h]

theorem mergeCoffeeBreaks_sublist (l : List Int) : List.Sublist (mergeCoffeeBreaks l) l :=
  mergeLoop_sublist l.length l

theorem coffeeOnce_mergeCoffeeBreaks (l : List Int) :
    coffeeOnce (mergeCoffeeBreaks l) = none :=
  coffeeOnce_mergeLoop l.length l le_rfl

theorem mergeCoffeeBreaks_none {l : List Int} (h : coffeeOnce l = none) :
    mergeCoffeeBreaks l = l :=
  mergeLoop_none h l.length

theorem shortLoop_sublist : ∀ (fuel : Nat) (l : List Int), List.Sublist (shortLoop fuel l) l := by
  intro fuel
  induction fuel with
  | zero => intro l; exact List.Sublist.refl l
  | succ n ih =>
    intro l
    simp only [shortLoop]
    split
    · rename_i l' h
      exact (ih l').trans (shortOnce_sublist h)
    · exact List.Sublist.refl l

theorem shortOnce_shortLoop : ∀ (fuel : Nat) (l : List Int), l.length ≤ fuel →
    shortOnce (shortLoop fuel l) = none := by
  intro fuel
  induction fuel with
  | zero =>
    intro l hl
    have hnil : l = [] := List.length_eq_zero.mp (by omega)
    subst hnil; rfl
  | succ n ih =>
    intro l hl
    simp only [shortLoop]
    split
    · rename_i l' h
      exact ih l' (by have := shortOnce_length h; omega)
    · rename_i h
      exact h

theorem shortLoop_none {l : List Int} (h : shortOnce l = none) :
    ∀ fuel, shortLoop fuel l = l := by
  intro fuel
  cases fuel with
  | zero => rfl
  | succ n => simp only [shortLoop, h]

theorem removeShortWorkBlocks_sublist (l : List Int) : List.Sublist (removeShortWorkBlocks l) l :=
  shortLoop_sublist l.length l

theorem shortOnce_removeShortWorkBlocks (l : List Int) :
    shortOnce (removeShortWorkBlocks l) = none :=
  shortOnce_shortLoop l.length l le_rfl

theorem removeShortWorkBlocks_none {l : List Int} (h : shortOnce l = none) :
    removeShortWorkBlocks l = l :=
  shortLoop_none h l.length

theorem chain'_gap5_sublist {l₁ l₂ : List Int} (hs : List.Sublist l₁ l₂)
    (hc : List.Chain' gap5 l₂) : List.Chain' gap5 l₁ :=
  hc.sublist hs

theorem chain'_gap5_pairwise {l : List Int} (hc : List.Chain' gap5 l) :
    List.Pairwise gap5 l :=
  List.chain'_iff_pairwise.mp hc

theorem chain'_gap5_sorted {l : List Int} (hc : List.Chain' gap5 l) :
    List.Sorted (fun a b : Int => a ≤ b) l :=
  (chain'_gap5_pairwise hc).imp (fun h => by unfold gap5 at h; omega)

theorem sortMins_sorted (l : List Int) :
    List.Sorted (fun a b : Int => a ≤ b) (sortMins l) :=
  List.sorted_insertionSort _ l

theorem sortMins_eq_self {l : List Int}
    (h : List.Sorted (fun a b : Int => a ≤ b) l) : sortMins l = l :=
  h.insertionSort_eq

theorem sortMins_perm (l : List Int) : List.Perm (sortMins l) l :=
  List.perm_insertionSort _ l

/-- Any run of the value pipeline spaces surviving stamps at least 5
minutes apart. -/
theorem pipeline_chain (x : List Int) :
    List.Chain' gap5 (removeShortWorkBlocks (mergeCoffeeBreaks (dedup5 (sortMins x)))) := by
  have h1 := dedup5_chain (sortMins x)
  have h2 := chain'_gap5_sublist (mergeCoffeeBreaks_sublist _) h1
  exact chain'_gap5_sublist (removeShortWorkBlocks_sublist _) h2

theorem coffeeOnce_short {l : List Int} (h : l.length ≤ 3) : coffeeOnce l = none := by
  cases l with
  | nil => rfl
  | cons a t => cases t with
    | nil => rfl
    | cons b t2 => cases t2 with
      | nil => rfl
      | cons c t3 => cases t3 with
        | nil => rfl
        | cons d rest => simp [List.length_cons] at h

theorem coffeeOnce_cons4_none {a b c d : Int} {rest : List Int}
    (h : coffeeOnce (a :: b :: c :: d :: rest) = none) :
    ¬(0 < c - b ∧ c - b < 20) ∧ coffeeOnce (c :: d :: rest) = none := by
  by_cases hg : 0 < c - b ∧ c - b < 20
  · simp only [coffeeOnce, if_pos hg] at h
    exact Option.noConfusion h
  · refine ⟨hg, ?_⟩
    simp only [coffeeOnce, if_neg hg] at h
    cases hr : coffeeOnce (c :: d :: rest) with
    | none => rfl
    | some x => rw [hr] at h; exact Option.noConfusion h

theorem coffeeOnce_cons4_none_intro {a b c d : Int} {rest : List Int}
    (hg : ¬(0 < c - b ∧ c - b < 20)) (h : coffeeOnce (c :: d :: rest) = none) :
    coffeeOnce (a :: b :: c :: d :: rest) = none := by
  simp only [coffeeOnce, if_neg hg, h]

theorem shortOnce_some_shape {r : List Int} {x : List Int}
    (h : shortOnce r = some x) : ∃ c d r2, r = c :: d :: r2 := by
  cases r with
  | nil => exact Option.noConfusion h
  | cons c t => cases t with
    | nil => exact Option.noConfusion h
    | cons d r2 => exact ⟨c, d, r2, rfl⟩

/-- Dropping a sub-10-minute pair cannot create a mergeable coffee gap: the
merged boundary spans at least the 20 minutes of the boundary it absorbs. -/
theorem coffeeOnce_none_shortOnce : ∀ {l l' : List Int},
    List.Chain' gap5 l → coffeeOnce l = none → shortOnce l = some l' →
    coffeeOnce l' = none := by
  intro l
  induction l using shortOnce.induct with
  | case1 a b rest h =>
    intro l' hc hn hs
    simp only [shortOnce, if_pos h] at hs
    obtain rfl := Option.some.inj hs
    cases rest with
    | nil => rfl
    | cons c t => cases t with
      | nil => rfl
      | cons d rest2 => exact (coffeeOnce_cons4_none hn).2
  | case2 a b rest h l hrec ih =>
    intro l' hc hn hs
    simp only [shortOnce, if_neg h, hrec] at hs
    obtain rfl := Option.some.inj hs
    obtain ⟨c, d, rest2, rfl⟩ := shortOnce_some_shape hrec
    have hcd := coffeeOnce_cons4_none hn
    have hcrest : List.Chain' gap5 (c :: d :: rest2) := hc.tail.tail
    have hl' : coffeeOnce l = none := ih hcrest hcd.2 hrec
    cases hll : l with
    | nil => rfl
    | cons c' t => cases t with
      | nil => rfl
      | cons d' t2 =>
        subst hll
        have hsub : List.Sublist (c' :: d' :: t2) (c :: d :: rest2) := shortOnce_sublist hrec
        have hc'mem : c' ∈ c :: d :: rest2 :=
          hsub.subset (List.mem_cons_self c' (d' :: t2))
        have hbc : gap5 b c := (hc.tail).rel_head
        unfold gap5 at hbc
        have h20 : 20 ≤ c - b := by
          by_contra hlt
          exact hcd.1 ⟨by omega, by omega⟩
        have hcle : c ≤ c' := by
          have hp : List.Pairwise gap5 (c :: d :: rest2) := chain'_gap5_pairwise hcrest
          rcases List.mem_cons.mp hc'mem with h1 | h1
          · omega
          · have := (List.pairwise_cons.mp hp).1 c' h1
            unfold gap5 at this; omega
        have hgap : ¬(0 < c' - b ∧ c' - b < 20) := by
          intro hcontra
          omega
        exact coffeeOnce_cons4_none_intro hgap hl'
  | case3 a b rest h hrec =>
    intro l' hc hn hs
    simp only [shortOnce, if_neg h, hrec] at hs
    exact Option.noConfusion hs
  | case4 l h =>
    intro l' hc hn hs
    have hnone : shortOnce l = none := by
      cases l with
      | nil => rfl
      | cons a t => cases t with
        | nil => rfl
        | cons b t2 => exact absurd rfl (h a b t2)
    rw [hnone] at hs
    exact Option.noConfusion hs

theorem coffeeOnce_none_shortLoop : ∀ (fuel : Nat) (l : List Int),
    List.Chain' gap5 l → coffeeOnce l = none →
    coffeeOnce (shortLoop fuel l) = none := by
  intro fuel
  induction fuel with
  | zero => intro l _ hn; exact hn
  | succ n ih =>
    intro l hc hn
    simp only [shortLoop]
    split
    · rename_i l' h
      exact ih l' (chain'_gap5_sublist (shortOnce_sublist h) hc)
        (coffeeOnce_none_shortOnce hc hn h)
    · exact hn

/-- The full run of the values pipeline leaves no mergeable coffee gap. -/
theorem pipeline_coffee_none (x : List Int) :
    coffeeOnce (removeShortWorkBlocks (mergeCoffeeBreaks (dedup5 (sortMins x)))) = none := by
  have hchain : List.Chain' gap5 (mergeCoffeeBreaks (dedup5 (sortMins x))) :=
    chain'_gap5_sublist (mergeCoffeeBreaks_sublist _) (dedup5_chain _)
  have hnone := coffeeOnce_mergeCoffeeBreaks (dedup5 (sortMins x))
  exact coffeeOnce_none_shortLoop _ _ hchain hnone

/-- The full run of the values pipeline leaves no sub-10-minute pair. -/
theorem pipeline_short_none (x : List Int) :
    shortOnce (removeShortWorkBlocks (mergeCoffeeBreaks (dedup5 (sortMins x)))) = none :=
  shortOnce_removeShortWorkBlocks _

/-- A list already satisfying the three pipeline invariants is a fixed
point of the values pipeline. -/
theorem pipeline_fixed {l : List Int} (hc : List.Chain' gap5 l)
    (hcoffee : coffeeOnce l = none) (hshort : shortOnce l = none) :
    removeShortWorkBlocks (mergeCoffeeBreaks (dedup5 (sortMins l))) = l := by
  rw [sortMins_eq_self (chain'_gap5_sorted hc), dedup5_eq_self hc,
      mergeCoffeeBreaks_none hcoffee, removeShortWorkBlocks_none hshort]

theorem pipeline_subset (x : List Int) :
    ∀ v ∈ removeShortWorkBlocks (mergeCoffeeBreaks (dedup5 (sortMins x))), v ∈ x := by
  intro v hv
  have h1 := (removeShortWorkBlocks_sublist (mergeCoffeeBreaks (dedup5 (sortMins x)))).subset hv
  have h2 := (mergeCoffeeBreaks_sublist (dedup5 (sortMins x))).subset h1
  have h3 := (dedup5_sublist (sortMins x)).subset h2
  exact (sortMins_perm x).mem_iff.mp h3

theorem pipeline_length_le (x : List Int) :
    (removeShortWorkBlocks (mergeCoffeeBreaks (dedup5 (sortMins x)))).length ≤ x.length := by
  have h1 := (removeShortWorkBlocks_sublist (mergeCoffeeBreaks (dedup5 (sortMins x)))).length_le
  have h2 := (mergeCoffeeBreaks_sublist (dedup5 (sortMins x))).length_le
  have h3 := (dedup5_sublist (sortMins x)).length_le
  have h4 := (sortMins_perm x).length_eq
  omega

theorem coffeeOnce_none_take : ∀ {l : List Int}, coffeeOnce l = none →
    ∀ n, coffeeOnce (l.take n) = none := by
  intro l
  induction l using coffeeOnce.induct with
  | case1 a b c d rest h =>
    intro hn
    simp only [coffeeOnce, if_pos h] at hn
    exact Option.noConfusion hn
  | case2 a b c d rest h l hrec ih =>
    intro hn
    simp only [coffeeOnce, if_neg h, hrec] at hn
    exact Option.noConfusion hn
  | case3 a b c d rest h hrec ih =>
    intro _ n
    match n with
    | 0 => rfl
    | 1 => rfl
    | 2 => rfl
    | 3 => rfl
    | (m + 4) =>
      show coffeeOnce (a :: b :: c :: d :: rest.take m) = none
      have := ih hrec (m + 2)
      simp only [List.take_succ_cons] at this
      exact coffeeOnce_cons4_none_intro h this
  | case4 l h =>
    intro _ n
    have hlen : l.length ≤ 3 := by
      cases l with
      | nil => simp
      | cons a t => cases t with
        | nil => simp
        | cons b t2 => cases t2 with
          | nil => simp
          | cons c t3 => cases t3 with
            | nil => simp
            | cons d rest => exact absurd rfl (h a b c d rest)
    exact coffeeOnce_short (le_trans (List.length_take_le' n l) hlen)

theorem shortOnce_short {l : List Int} (h : l.length ≤ 1) : shortOnce l = none := by
  cases l with
  | nil => rfl
  | cons a t => cases t with
    | nil => rfl
    | cons b t2 => simp [List.length_cons] at h

theorem shortOnce_none_take_even : ∀ {l : List Int}, shortOnce l = none →
    ∀ n, n % 2 = 0 → shortOnce (l.take n) = none := by
  intro l
  induction l using shortOnce.induct with
  | case1 a b rest h =>
    intro hn
    simp only [shortOnce, if_pos h] at hn
    exact Option.noConfusion hn
  | case2 a b rest h l hrec ih =>
    intro hn
    simp only [shortOnce, if_neg h, hrec] at hn
    exact Option.noConfusion hn
  | case3 a b rest h hrec ih =>
    intro _ n he
    match n, he with
    | 0, _ => rfl
    | 1, he => exact absurd he (by decide)
    | (m + 2), he =>
      show shortOnce (a :: b :: rest.take m) = none
      have hm := ih hrec m (by omega)
      simp only [shortOnce, if_neg h, hm]
  | case4 l h =>
    intro _ n _
    have hlen : l.length ≤ 1 := by
      cases l with
      | nil => simp
      | cons a t => cases t with
        | nil => simp
        | cons b t2 => exact absurd rfl (h a b t2)
    exact shortOnce_short (le_trans (List.length_take_le' n l) hlen)

/-! Round trip: `timeToMinutes` after `minutesToTime` -/

theorem digit_ok : ∀ k : Nat, k < 10 →
    jsToLower (Nat.digitChar k) = Nat.digitChar k
    ∧ fixOcrChar (Nat.digitChar k) = Nat.digitChar k
    ∧ sepChar (Nat.digitChar k) = Nat.digitChar k
    ∧ isJsSpace (Nat.digitChar k) = false
    ∧ Nat.digitChar k ≠ '?' ∧ Nat.digitChar k ≠ '[' ∧ Nat.digitChar k ≠ ']'
    ∧ Nat.digitChar k ≠ ':' ∧ Nat.digitChar k ≠ '-' ∧ Nat.digitChar k ≠ '+'
    ∧ ((('0' ≤ Nat.digitChar k) && (Nat.digitChar k ≤ '9')) = true)
    ∧ (Nat.digitChar k).toNat = 48 + k := by decide

theorem natToDecimalAux_small {fuel n : Nat} (hf : 0 < fuel) (h : n < 10) :
    natToDecimalAux fuel n = [Nat.digitChar n] := by
  cases fuel with
  | zero => omega
  | succ f => simp [natToDecimalAux, h]

theorem natToDecimal_two {n : Nat} (h1 : 10 ≤ n) (h2 : n ≤ 99) :
    natToDecimal n = [Nat.digitChar (n / 10), Nat.digitChar (n % 10)] := by
  unfold natToDecimal
  rw [show natToDecimalAux (n + 1) n
      = natToDecimalAux n (n / 10) ++ [Nat.digitChar (n % 10)] from by
    simp [natToDecimalAux, Nat.not_lt.mpr h1]]
  rw [natToDecimalAux_small (by omega) (by omega)]
  rfl

theorem padStart2_natToDecimal {n : Nat} (h : n ≤ 99) :
    padStart2 (natToDecimal n) = [Nat.digitChar (n / 10), Nat.digitChar (n % 10)] := by
  by_cases h10 : n < 10
  · have hd : natToDecimal n = [Nat.digitChar n] :=
      natToDecimalAux_small (by omega) h10
    rw [hd, Nat.div_eq_of_lt h10, Nat.mod_eq_of_lt h10]
    simp [padStart2]
    rfl
  · rw [natToDecimal_two (by omega) h]
    simp [padStart2]

theorem minutesToTime_data {v : Int} (h0 : 0 ≤ v) (h1 : v ≤ 1499) :
    (minutesToTime v).data
      = [Nat.digitChar (v.toNat / 60 / 10), Nat.digitChar (v.toNat / 60 % 10), ':',
         Nat.digitChar (v.toNat % 60 / 10), Nat.digitChar (v.toNat % 60 % 10)] := by
  have hneg : ¬ v < 0 := by omega
  have habs : v.natAbs = v.toNat := by omega
  unfold minutesToTime
  dsimp only
  rw [if_neg hneg, habs,
      padStart2_natToDecimal (show v.toNat / 60 ≤ 99 by omega),
      padStart2_natToDecimal (show v.toNat % 60 ≤ 99 by omega)]
  rfl

theorem jsParseInt_two_digits {k1 k2 : Nat} (h1 : k1 < 10) (h2 : k2 < 10) :
    jsParseInt [Nat.digitChar k1, Nat.digitChar k2]
      = some ((10 * k1 + k2 : Nat) : Int) := by
  obtain ⟨_, _, _, hw1, _, _, _, _, he1, hg1, hq1, ht1⟩ := digit_ok k1 h1
  obtain ⟨_, _, _, hw2, _, _, _, _, _, _, hq2, ht2⟩ := digit_ok k2 h2
  have hdrop : List.dropWhile isJsSpace [Nat.digitChar k1, Nat.digitChar k2]
      = [Nat.digitChar k1, Nat.digitChar k2] := by
    rw [List.dropWhile_cons]
    simp [hw1]
  have htake : List.takeWhile (fun c => '0' ≤ c && c ≤ '9')
      [Nat.digitChar k1, Nat.digitChar k2] = [Nat.digitChar k1, Nat.digitChar k2] := by
    rw [List.takeWhile_cons, List.takeWhile_cons]
    simp only [hq1, hq2, if_true, List.takeWhile_nil]
  unfold jsParseInt
  dsimp only
  rw [hdrop]
  simp only [List.head?_cons]
  rw [if_neg (show ¬ ((some (Nat.digitChar k1) = some '-')
      ∨ (some (Nat.digitChar k1) = some '+')) from by simp [he1, hg1])]
  rw [htake]
  rw [if_neg (show ¬ (List.isEmpty [Nat.digitChar k1, Nat.digitChar k2] = true)
      from by simp)]
  rw [if_neg (show ¬ ((if some (Nat.digitChar k1) = some '-' then true else false) = true)
      from by simp [he1])]
  simp only [List.foldl_cons, List.foldl_nil]
  congr 1
  omega

theorem timeToMinutesCore_digits {k1 k2 k3 k4 : Nat}
    (h1 : k1 < 10) (h2 : k2 < 10) (h3 : k3 < 10) (h4 : k4 < 10)
    (hh : 10 * k1 + k2 ≤ 24) (hm : 10 * k3 + k4 ≤ 59) :
    timeToMinutesCore [Nat.digitChar k1, Nat.digitChar k2, ':',
        Nat.digitChar k3, Nat.digitChar k4]
      = some (((10 * k1 + k2) * 60 + (10 * k3 + k4) : Nat) : Int) := by
  obtain ⟨hl1, hf1, hs1, hw1, ha1, hb1, hc1, hd1, _, _, _, _⟩ := digit_ok k1 h1
  obtain ⟨hl2, hf2, hs2, hw2, ha2, hb2, hc2, hd2, _, _, _, _⟩ := digit_ok k2 h2
  obtain ⟨hl3, hf3, hs3, hw3, ha3, hb3, hc3, hd3, _, _, _, _⟩ := digit_ok k3 h3
  obtain ⟨hl4, hf4, hs4, hw4, ha4, hb4, hc4, hd4, _, _, _, _⟩ := digit_ok k4 h4
  have hlc : jsToLower ':' = ':' := by decide
  have hfc : fixOcrChar ':' = ':' := by decide
  have hsc : sepChar ':' = ':' := by decide
  have hwc : isJsSpace ':' = false := by decide
  unfold timeToMinutesCore
  rw [if_neg (show ¬ (List.isEmpty [Nat.digitChar k1, Nat.digitChar k2, ':',
      Nat.digitChar k3, Nat.digitChar k4] = true) from by simp)]
  rw [if_neg (show ¬ ((List.contains [Nat.digitChar k1, Nat.digitChar k2, ':',
        Nat.digitChar k3, Nat.digitChar k4] '?'
      || List.contains [Nat.digitChar k1, Nat.digitChar k2, ':',
        Nat.digitChar k3, Nat.digitChar k4] '['
      || List.contains [Nat.digitChar k1, Nat.digitChar k2, ':',
        Nat.digitChar k3, Nat.digitChar k4] ']') = true) from by
    simp [List.contains_cons]
    exact ⟨⟨⟨Ne.symm ha1, Ne.symm ha2, Ne.symm ha3, Ne.symm ha4⟩,
      Ne.symm hb1, Ne.symm hb2, Ne.symm hb3, Ne.symm hb4⟩,
      Ne.symm hc1, Ne.symm hc2, Ne.symm hc3, Ne.symm hc4⟩)]
  dsimp only
  rw [show List.map jsToLower [Nat.digitChar k1, Nat.digitChar k2, ':',
        Nat.digitChar k3, Nat.digitChar k4]
      = [Nat.digitChar k1, Nat.digitChar k2, ':', Nat.digitChar k3, Nat.digitChar k4] from by
    simp [hl1, hl2, hl3, hl4, hlc]]
  rw [show jsTrim [Nat.digitChar k1, Nat.digitChar k2, ':',
        Nat.digitChar k3, Nat.digitChar k4]
      = [Nat.digitChar k1, Nat.digitChar k2, ':', Nat.digitChar k3, Nat.digitChar k4] from by
    simp [jsTrim, List.dropWhile_cons, hw1, hw4, hwc, hw2, hw3]]
  rw [show List.map fixOcrChar [Nat.digitChar k1, Nat.digitChar k2, ':',
        Nat.digitChar k3, Nat.digitChar k4]
      = [Nat.digitChar k1, Nat.digitChar k2, ':', Nat.digitChar k3, Nat.digitChar k4] from by
    simp [hf1, hf2, hf3, hf4, hfc]]
  rw [show List.map sepChar [Nat.digitChar k1, Nat.digitChar k2, ':',
        Nat.digitChar k3, Nat.digitChar k4]
      = [Nat.digitChar k1, Nat.digitChar k2, ':', Nat.digitChar k3, Nat.digitChar k4] from by
    simp [hs1, hs2, hs3, hs4, hsc]]
  rw [show squeezeColons [Nat.digitChar k1, Nat.digitChar k2, ':',
        Nat.digitChar k3, Nat.digitChar k4]
      = [Nat.digitChar k1, Nat.digitChar k2, ':', Nat.digitChar k3, Nat.digitChar k4] from by
    simp [squeezeColons, hd1, hd2, hd3, hd4]]
  rw [if_pos (show (List.contains [Nat.digitChar k1, Nat.digitChar k2, ':',
      Nat.digitChar k3, Nat.digitChar k4] ':') = true from by
    simp [List.contains_cons])]
  rw [show splitOnColon [Nat.digitChar k1, Nat.digitChar k2, ':',
        Nat.digitChar k3, Nat.digitChar k4]
      = [[Nat.digitChar k1, Nat.digitChar k2], [Nat.digitChar k3, Nat.digitChar k4]] from by
    simp [splitOnColon, hd1, hd2, hd3, hd4]]
  dsimp only
  rw [jsParseInt_two_digits h1 h2, jsParseInt_two_digits h3 h4]
  dsimp only
  rw [if_neg (show ¬ (((10 * k1 + k2 : Nat) : Int) < 0
      ∨ ((10 * k1 + k2 : Nat) : Int) > 24
      ∨ ((10 * k3 + k4 : Nat) : Int) < 0
      ∨ ((10 * k3 + k4 : Nat) : Int) > 59) from by push_cast; omega)]
  refine congrArg some ?_
  push_cast
  ring

/-- Rendering then reparsing a minute value in `[0, 1499]` is lossless. -/
theorem timeToMinutes_minutesToTime {v : Int} (h0 : 0 ≤ v) (h1 : v ≤ 1499) :
    timeToMinutes (minutesToTime v) = some v := by
  unfold timeToMinutes
  rw [minutesToTime_data h0 h1]
  rw [timeToMinutesCore_digits (by omega) (by omega) (by omega) (by omega)
      (by omega) (by omega)]
  congr 1
  omega

theorem timeToMinutes_empty : timeToMinutes "" = none := rfl

theorem minutesToTime_ne_empty (v : Int) : minutesToTime v ≠ "" := by
  intro h
  have hdata := congrArg String.data h
  unfold minutesToTime at hdata
  dsimp only at hdata
  simp [padStart2] at hdata

/-! Idempotence of the normalization (C4) and the column invariant (C9) -/

theorem filterMap_map_minutesToTime {vs : List Int}
    (h : ∀ v ∈ vs, 0 ≤ v ∧ v ≤ 1499) :
    (vs.map minutesToTime).filterMap timeToMinutes = vs := by
  induction vs with
  | nil => rfl
  | cons a t ih =>
    have ha := timeToMinutes_minutesToTime (h a (by simp)).1 (h a (by simp)).2
    simp only [List.map_cons, List.filterMap_cons, ha]
    rw [ih (fun v hv => h v (by simp [hv]))]

theorem filterMap_replicate_empty (k : Nat) :
    (List.replicate k "").filterMap timeToMinutes = [] := by
  induction k with
  | zero => rfl
  | succ n ih =>
    simp only [List.replicate_succ, List.filterMap_cons, timeToMinutes_empty, ih]

theorem colsList_colsOf {vals : List Int} (hlen : vals.length ≤ 6) :
    colsList (colsOf vals)
      = vals.map minutesToTime ++ List.replicate (6 - vals.length) "" := by
  match vals, hlen with
  | [], _ => rfl
  | [a], _ => rfl
  | [a, b], _ => rfl
  | [a, b, c], _ => rfl
  | [a, b, c, d], _ => rfl
  | [a, b, c, d, e], _ => rfl
  | [a, b, c, d, e, f], _ => rfl
  | a :: b :: c :: d :: e :: f :: g :: t, h =>
    simp only [List.length_cons] at h
    omega

theorem colsList_colsOf_ge6 {vals : List Int} (hlen : 6 ≤ vals.length) :
    colsList (colsOf vals) = (vals.take 6).map minutesToTime := by
  match vals, hlen with
  | [], h => simp at h
  | [a], h => simp at h
  | [a, b], h => simp at h
  | [a, b, c], h => simp at h
  | [a, b, c, d], h => simp at h
  | [a, b, c, d, e], h => simp at h
  | a :: b :: c :: d :: e :: f :: t, _ => rfl

theorem nonemptyCols_colsOf (vals : List Int) :
    nonemptyCols (colsOf vals) = (vals.take 6).map minutesToTime := by
  rcases le_or_lt vals.length 6 with h | h
  · rw [nonemptyCols, colsList_colsOf h, List.filter_append]
    have h1 : (vals.map minutesToTime).filter (fun s => !(s == ""))
        = vals.map minutesToTime := by
      rw [List.filter_eq_self]
      intro s hs
      obtain ⟨v, _, rfl⟩ := List.mem_map.mp hs
      simpa using minutesToTime_ne_empty v
    have h2 : (List.replicate (6 - vals.length) "").filter (fun s => !(s == "")) = [] := by
      rw [List.filter_eq_nil_iff]
      intro s hs
      rw [List.eq_of_mem_replicate hs]
      simp
    rw [h1, h2, List.append_nil, List.take_of_length_le h]
  · rw [nonemptyCols, colsList_colsOf_ge6 (by omega)]
    rw [List.filter_eq_self]
    intro s hs
    obtain ⟨v, _, rfl⟩ := List.mem_map.mp hs
    simpa using minutesToTime_ne_empty v

theorem processTimeEntries_of_cols (vals : List Int)
    (hchain : List.Chain' gap5 vals) (hcoffee : coffeeOnce vals = none)
    (hshort : shortOnce vals = none) (hlen : vals.length ≤ 6)
    (hrange : ∀ v ∈ vals, 0 ≤ v ∧ v ≤ 1499) :
    processTimeEntries (colsOf vals).entry1 (colsOf vals).exit1 (colsOf vals).entry2
      (colsOf vals).exit2 (colsOf vals).entry3 (colsOf vals).exit3 = vals := by
  unfold processTimeEntries
  have hfm : [(colsOf vals).entry1, (colsOf vals).exit1, (colsOf vals).entry2,
      (colsOf vals).exit2, (colsOf vals).entry3,
      (colsOf vals).exit3].filterMap timeToMinutes = vals := by
    rw [show [(colsOf vals).entry1, (colsOf vals).exit1, (colsOf vals).entry2,
        (colsOf vals).exit2, (colsOf vals).entry3, (colsOf vals).exit3]
        = colsList (colsOf vals) from rfl]
    rw [colsList_colsOf hlen, List.filterMap_append,
        filterMap_map_minutesToTime hrange, filterMap_replicate_empty, List.append_nil]
  rw [hfm]
  exact pipeline_fixed hchain hcoffee hshort

theorem colsOf_take6 (vals : List Int) : colsOf (vals.take 6) = colsOf vals := by
  unfold colsOf colStr
  congr 1 <;> rw [List.get?_take (by omega)]

/-- C4: the normalization pipeline is idempotent — re-normalizing the six
output columns of `normalizeAndSortRow` reproduces them, and re-running
`processRawTimestampsToColumns` on the list of its own nonempty output
columns yields the same columns. -/
theorem normalization_idempotent :
    (∀ entry1 exit1 entry2 exit2 entry3 exit3 : String,
      normalizeAndSortRow
          (normalizeAndSortRow entry1 exit1 entry2 exit2 entry3 exit3).entry1
          (normalizeAndSortRow entry1 exit1 entry2 exit2 entry3 exit3).exit1
          (normalizeAndSortRow entry1 exit1 entry2 exit2 entry3 exit3).entry2
          (normalizeAndSortRow entry1 exit1 entry2 exit2 entry3 exit3).exit2
          (normalizeAndSortRow entry1 exit1 entry2 exit2 entry3 exit3).entry3
          (normalizeAndSortRow entry1 exit1 entry2 exit2 entry3 exit3).exit3
        = normalizeAndSortRow entry1 exit1 entry2 exit2 entry3 exit3)
    ∧ (∀ rawTimestamps : List String,
      processRawTimestampsToColumns
          (nonemptyCols (processRawTimestampsToColumns rawTimestamps))
        = processRawTimestampsToColumns rawTimestamps) := by
  constructor
  · intro e1 x1 e2 x2 e3 x3
    rw [show normalizeAndSortRow e1 x1 e2 x2 e3 x3
        = colsOf (removeShortWorkBlocks (mergeCoffeeBreaks (dedup5 (sortMins
            ([e1, x1, e2, x2, e3, x3].filterMap timeToMinutes))))) from rfl]
    set parsed := [e1, x1, e2, x2, e3, x3].filterMap timeToMinutes with hparsed
    set w := removeShortWorkBlocks (mergeCoffeeBreaks (dedup5 (sortMins parsed))) with hw
    have hchain : List.Chain' gap5 w := pipeline_chain parsed
    have hcoffee : coffeeOnce w = none := pipeline_coffee_none parsed
    have hshort : shortOnce w = none := pipeline_short_none parsed
    have hrange : ∀ v ∈ w, 0 ≤ v ∧ v ≤ 1499 := by
      intro v hv
      obtain ⟨s, _, hs⟩ := List.mem_filterMap.mp (pipeline_subset parsed v hv)
      exact timeToMinutes_range hs
    have hlen : w.length ≤ 6 := by
      have h1 : w.length ≤ parsed.length := pipeline_length_le parsed
      have h2 : parsed.length ≤ 6 := by
        rw [hparsed]
        have := List.length_filterMap_le timeToMinutes [e1, x1, e2, x2, e3, x3]
        simpa using this
      omega
    exact congrArg colsOf (processTimeEntries_of_cols w hchain hcoffee hshort hlen hrange)
  · intro raw
    rw [show processRawTimestampsToColumns raw = colsOf (processRawList raw) from rfl]
    set vals := processRawList raw with hvals
    have hchain : List.Chain' gap5 vals := pipeline_chain (raw.filterMap timeToMinutes)
    have hcoffee : coffeeOnce vals = none := pipeline_coffee_none (raw.filterMap timeToMinutes)
    have hshort : shortOnce vals = none := pipeline_short_none (raw.filterMap timeToMinutes)
    have hrange : ∀ v ∈ vals, 0 ≤ v ∧ v ≤ 1499 := by
      intro v hv
      obtain ⟨s, _, hs⟩ :=
        List.mem_filterMap.mp (pipeline_subset (raw.filterMap timeToMinutes) v hv)
      exact timeToMinutes_range hs
    have hsecond : processRawList (nonemptyCols (colsOf vals)) = vals.take 6 := by
      unfold processRawList
      rw [nonemptyCols_colsOf]
      rw [filterMap_map_minutesToTime
        (fun v hv => hrange v ((List.take_sublist 6 vals).subset hv))]
      exact pipeline_fixed (hchain.take 6) (coffeeOnce_none_take hcoffee 6)
        (shortOnce_none_take_even hshort 6 (by decide))
    rw [show processRawTimestampsToColumns (nonemptyCols (colsOf vals))
        = colsOf (processRawList (nonemptyCols (colsOf vals))) from rfl]
    rw [hsecond]
    exact colsOf_take6 vals

theorem colsList_colsOf_getD (vals : List Int) {i : Nat} (h : i < 6) :
    (colsList (colsOf vals)).getD i "" = colStr vals i := by
  interval_cases i <;> rfl

/-- C9: in the output columns of `processRawTimestampsToColumns`, every
empty column is followed only by empty columns, and any two filled columns
re-parse to minute values at least 5 minutes apart, in increasing order. -/
theorem processRaw_cols_invariant (rawTimestamps : List String) (i j : Nat)
    (hij : i < j) (hj : j < 6) :
    ((colsList (processRawTimestampsToColumns rawTimestamps)).getD i "" = "" →
      (colsList (processRawTimestampsToColumns rawTimestamps)).getD j "" = "")
    ∧ ((colsList (processRawTimestampsToColumns rawTimestamps)).getD j "" ≠ "" →
        ∃ a b, timeToMinutes
              ((colsList (processRawTimestampsToColumns rawTimestamps)).getD i "")
            = some a
          ∧ timeToMinutes
              ((colsList (processRawTimestampsToColumns rawTimestamps)).getD j "")
            = some b
          ∧ a + 5 ≤ b) := by
  have hi : i < 6 := by omega
  rw [show processRawTimestampsToColumns rawTimestamps
      = colsOf (processRawList rawTimestamps) from rfl]
  set vals := processRawList rawTimestamps with hvals
  have hchain : List.Chain' gap5 vals :=
    pipeline_chain (rawTimestamps.filterMap timeToMinutes)
  have hrange : ∀ v ∈ vals, 0 ≤ v ∧ v ≤ 1499 := by
    intro v hv
    obtain ⟨s, _, hs⟩ := List.mem_filterMap.mp
      (pipeline_subset (rawTimestamps.filterMap timeToMinutes) v hv)
    exact timeToMinutes_range hs
  rw [colsList_colsOf_getD vals hi, colsList_colsOf_getD vals hj]
  constructor
  · intro hempty
    unfold colStr at hempty ⊢
    cases hgi : vals.get? i with
    | some v =>
      rw [hgi] at hempty
      exact absurd hempty (minutesToTime_ne_empty v)
    | none =>
      have hlen : vals.length ≤ i := List.get?_eq_none.mp hgi
      have : vals.get? j = none := List.get?_eq_none.mpr (by omega)
      rw [this]
  · intro hnotempty
    unfold colStr at hnotempty ⊢
    cases hgj : vals.get? j with
    | none => rw [hgj] at hnotempty; exact absurd rfl hnotempty
    | some b =>
      have hjlen : j < vals.length := by
        rcases List.get?_eq_some.mp hgj with ⟨hh, _⟩
        exact hh
      have hilen : i < vals.length := by omega
      cases hgi : vals.get? i with
      | none => exact absurd (List.get?_eq_none.mp hgi) (by omega)
      | some a =>
        have hmem_a : a ∈ vals := List.get?_mem hgi
        have hmem_b : b ∈ vals := List.get?_mem hgj
        refine ⟨a, b, ?_, ?_, ?_⟩
        · exact timeToMinutes_minutesToTime (hrange a hmem_a).1 (hrange a hmem_a).2
        · exact timeToMinutes_minutesToTime (hrange b hmem_b).1 (hrange b hmem_b).2
        · have hp := chain'_gap5_pairwise hchain
          rw [List.pairwise_iff_get] at hp
          obtain ⟨hi', rfl⟩ := List.get?_eq_some.mp hgi
          obtain ⟨hj', rfl⟩ := List.get?_eq_some.mp hgj
          exact hp ⟨i, hi'⟩ ⟨j, hj'⟩ hij

/-- Witness for `processRaw_cols_invariant` at two parsed timestamps. -/
theorem processRaw_cols_invariant_witness :
    (0 : Nat) < 1 ∧ (1 : Nat) < 6
    ∧ (((colsList (processRawTimestampsToColumns ["08:00", "12:00"])).getD 0 "" = "" →
        (colsList (processRawTimestampsToColumns ["08:00", "12:00"])).getD 1 "" = "")
      ∧ ((colsList (processRawTimestampsToColumns ["08:00", "12:00"])).getD 1 "" ≠ "" →
        ∃ a b, timeToMinutes
              ((colsList (processRawTimestampsToColumns ["08:00", "12:00"])).getD 0 "")
            = some a
          ∧ timeToMinutes
              ((colsList (processRawTimestampsToColumns ["08:00", "12:00"])).getD 1 "")
            = some b
          ∧ a + 5 ≤ b)) :=
  ⟨by decide, by decide,
    processRaw_cols_invariant ["08:00", "12:00"] 0 1 (by decide) (by decide)⟩

/-! The dead second pass (C1) and weekly DSR aggregation (C5) -/

/-- C1 (code bug): October 2023 — the employee works the Sunday Oct 1
(08:00–16:00) and is absent on Monday Oct 2, a candidate fault of the same
week, yet the recomputation neither converts the Monday to compensatory
rest nor flags the Sunday, and still counts the Monday as a fault: the
week map's `sundayRow` is never assigned, so the second pass never runs. -/
theorem sunday_compensation_never_fires :
    (enrichRow 2023 10 [] defaultSchedule (mkRow "r1" "01" "08:00" "16:00"))._tempMins = 480
    ∧ (enrichRow 2023 10 [] defaultSchedule (mkRow "r1" "01" "08:00" "16:00"))._tempDayIndex = 0
    ∧ (enrichRow 2023 10 [] defaultSchedule (mkRow "r2" "02" "" ""))._tempIsFalta = true
    ∧ (enrichRow 2023 10 [] defaultSchedule (mkRow "r2" "02" "" ""))._tempDayIndex = 1
    ∧ (enrichRow 2023 10 [] defaultSchedule (mkRow "r1" "01" "08:00" "16:00"))._tempWeek
        = (enrichRow 2023 10 [] defaultSchedule (mkRow "r2" "02" "" ""))._tempWeek
    ∧ (recompute 2023 10 [] defaultSchedule
        [mkRow "r1" "01" "08:00" "16:00", mkRow "r2" "02" "" ""]).rows.map
          TimeRow.isCompensatoryRest = [false, false]
    ∧ (recompute 2023 10 [] defaultSchedule
        [mkRow "r1" "01" "08:00" "16:00", mkRow "r2" "02" "" ""]).rows.map
          TimeRow.isSundayNoRest = [false, false]
    ∧ (recompute 2023 10 [] defaultSchedule
        [mkRow "r1" "01" "08:00" "16:00", mkRow "r2" "02" "" ""]).summary.totalFaltasDays = 1
    := by decide

/-- C5 counterexample: a week (Oct 1–7, 2023) with one unresolved fault
(Tuesday Oct 3), a holiday on Sunday Oct 1 and a holiday on Monday Oct 2
loses only 1 weekly-rest day in the code, while the claim as written
demands 2 because the week contains a holiday not falling on Sunday. -/
theorem dsr_holiday_counterexample :
    (recompute 2023 10
        [⟨"c1", 1, 10, "Feriado Dom", some 2023⟩, ⟨"c2", 2, 10, "Feriado Seg", some 2023⟩]
        defaultSchedule
        [mkRow "r1" "01" "" "", mkRow "r2" "02" "" "", mkRow "r3" "03" "" ""]
      ).summary.totalDsrDescontado = 1
    ∧ dsrClaimSpec ([mkRow "r1" "01" "" "", mkRow "r2" "02" "" "", mkRow "r3" "03" "" ""].map
        (enrichRow 2023 10
          [⟨"c1", 1, 10, "Feriado Dom", some 2023⟩, ⟨"c2", 2, 10, "Feriado Seg", some 2023⟩]
          defaultSchedule)) = 2 := by decide

theorem contains_iff_mem {l : List Int} {a : Int} : l.contains a = true ↔ a ∈ l := by
  induction l with
  | nil => simp [List.contains]
  | cons b t ih =>
    rw [List.contains_cons]
    simp [ih, Bool.or_eq_true, beq_iff_eq]

theorem updateWeek_map (w : Int) (f : WeekData → WeekData) :
    ∀ (keys : List Int) (g : Int → WeekData), keys.Nodup →
    updateWeek w f (keys.map (fun k => (k, g k)))
      = keys.map (fun k => (k, if k = w then f (g k) else g k)) := by
  intro keys
  induction keys with
  | nil => intro g _; rfl
  | cons k t ih =>
    intro g hnd
    obtain ⟨hk_notin, hnd_t⟩ := List.nodup_cons.mp hnd
    simp only [List.map_cons, updateWeek]
    by_cases hk : k = w
    · subst hk
      rw [if_pos rfl, if_pos rfl]
      congr 1
      apply List.map_congr_left
      intro k' hk'
      rw [if_neg (by intro h; subst h; exact hk_notin hk')]
    · rw [if_neg hk, if_neg hk, ih g hnd_t]

theorem updateWeek_append (w : Int) (f : WeekData → WeekData) :
    ∀ (l : List (Int × WeekData)) (d : WeekData), (∀ p ∈ l, p.1 ≠ w) →
    updateWeek w f (l ++ [(w, d)]) = l ++ [(w, f d)] := by
  intro l
  induction l with
  | nil =>
    intro d _
    simp [updateWeek]
  | cons p t ih =>
    intro d h
    obtain ⟨k2, d2⟩ := p
    simp only [List.cons_append, updateWeek]
    rw [if_neg (h (k2, d2) (by simp))]
    rw [show t.append [(w, d)] = t ++ [(w, d)] from rfl]
    rw [ih d (fun q hq => h q (by simp [hq]))]

theorem hasWeek_map (keys : List Int) (g : Int → WeekData) (w : Int) :
    hasWeek (keys.map (fun k => (k, g k))) w = keys.contains w := by
  induction keys with
  | nil => rfl
  | cons k t ih =>
    simp only [List.map_cons, hasWeek, List.any_cons, List.contains_cons]
    simp only [hasWeek] at ih
    rw [ih]
    by_cases h : k = w
    · subst h; rfl
    · have h1 : (k == w) = false := by simp [h]
      have h2 : (w == k) = false := by
        rw [beq_eq_false_iff_ne]
        exact fun hh => h hh.symm
      rw [h1, h2]

theorem weekKeys_append_single (rs : List ERow) (r : ERow) :
    weekKeys (rs ++ [r])
      = if r.dayParsed && !(weekKeys rs).contains r._tempWeek
        then weekKeys rs ++ [r._tempWeek] else weekKeys rs := by
  unfold weekKeys
  rw [List.foldl_append]
  rfl

theorem weekKeys_nodup (enriched : List ERow) : (weekKeys enriched).Nodup := by
  suffices h : ∀ (acc : List Int), acc.Nodup →
      (enriched.foldl (fun ks r =>
        if r.dayParsed && !ks.contains r._tempWeek then ks ++ [r._tempWeek] else ks)
        acc).Nodup by
    exact h [] List.nodup_nil
  induction enriched with
  | nil => intro acc h; exact h
  | cons r t ih =>
    intro acc h
    simp only [List.foldl_cons]
    by_cases hc : (r.dayParsed && !acc.contains r._tempWeek) = true
    · rw [if_pos hc]
      apply ih
      rw [List.nodup_append]
      refine ⟨h, List.nodup_singleton _, ?_⟩
      intro a ha hb
      rw [List.mem_singleton] at hb
      subst hb
      simp only [Bool.and_eq_true, Bool.not_eq_eq_eq_not, Bool.not_true] at hc
      exact absurd (contains_iff_mem.mpr ha) (by rw [hc.2]; simp)
    · rw [if_neg hc]
      exact ih acc h

theorem mem_weekKeys {k : Int} : ∀ {enriched : List ERow},
    k ∈ weekKeys enriched ↔ ∃ r ∈ enriched, r.dayParsed = true ∧ r._tempWeek = k := by
  suffices haux : ∀ (l : List ERow) (acc : List Int),
      (k ∈ l.foldl (fun ks r =>
        if r.dayParsed && !ks.contains r._tempWeek then ks ++ [r._tempWeek] else ks) acc
       ↔ k ∈ acc ∨ ∃ r ∈ l, r.dayParsed = true ∧ r._tempWeek = k) by
    intro enriched
    rw [weekKeys, haux enriched []]
    simp
  intro l
  induction l with
  | nil => intro acc; simp
  | cons r t ih =>
    intro acc
    simp only [List.foldl_cons]
    rw [ih]
    by_cases hp : r.dayParsed = true
    · by_cases hc : acc.contains r._tempWeek = true
      · rw [if_neg (by simp [hp]; exact contains_iff_mem.mp hc)]
        constructor
        · rintro (ha | ⟨r', hr', h1, h2⟩)
          · exact Or.inl ha
          · exact Or.inr ⟨r', List.mem_cons_of_mem r hr', h1, h2⟩
        · rintro (ha | ⟨r', hr', hpar, hwk⟩)
          · exact Or.inl ha
          · rcases List.mem_cons.mp hr' with rfl | hmem
            · refine Or.inl ?_
              rw [← hwk]
              exact contains_iff_mem.mp hc
            · exact Or.inr ⟨r', hmem, hpar, hwk⟩
      · rw [if_pos (by
          simp [hp]
          exact fun hmem => hc (contains_iff_mem.mpr hmem))]
        constructor
        · rintro (ha | ⟨r', hr', h1, h2⟩)
          · rcases List.mem_append.mp ha with ha | ha
            · exact Or.inl ha
            · rw [List.mem_singleton] at ha
              exact Or.inr ⟨r, List.mem_cons_self r t, hp, ha.symm⟩
          · exact Or.inr ⟨r', List.mem_cons_of_mem r hr', h1, h2⟩
        · rintro (ha | ⟨r', hr', hpar, hwk⟩)
          · exact Or.inl (List.mem_append.mpr (Or.inl ha))
          · rcases List.mem_cons.mp hr' with rfl | hmem
            · exact Or.inl (List.mem_append.mpr (Or.inr (by simp [hwk])))
            · exact Or.inr ⟨r', hmem, hpar, hwk⟩
    · rw [if_neg (by simp [hp])]
      constructor
      · rintro (ha | ⟨r', hr', h1, h2⟩)
        · exact Or.inl ha
        · exact Or.inr ⟨r', List.mem_cons_of_mem r hr', h1, h2⟩
      · rintro (ha | ⟨r', hr', hpar, hwk⟩)
        · exact Or.inl ha
        · rcases List.mem_cons.mp hr' with rfl | hmem
          · exact absurd hpar hp
          · exact Or.inr ⟨r', hmem, hpar, hwk⟩

theorem buildWeeks_spec (enriched : List ERow) :
    enriched.foldl addRowToWeeks []
      = (weekKeys enriched).map (fun k =>
          (k, { hasHoliday := weekHasHoliday enriched k,
                holidayIsSunday := weekHasSundayHoliday enriched k,
                hasFault := false, sundayRow := none : WeekData })) := by
  induction enriched using List.reverseRecOn with
  | nil => rfl
  | append_singleton rs r ih =>
    rw [List.foldl_append, List.foldl_cons, List.foldl_nil, ih,
        weekKeys_append_single]
    unfold addRowToWeeks
    by_cases hp : r.dayParsed = true
    · rw [if_pos hp, hasWeek_map]
      by_cases hc : (weekKeys rs).contains r._tempWeek = true
      · rw [if_pos hc, if_neg (by simp [hp]; exact contains_iff_mem.mp hc)]
        rw [updateWeek_map _ _ _ _ (weekKeys_nodup rs)]
        apply List.map_congr_left
        intro k hk
        by_cases hkw : k = r._tempWeek
        · subst hkw
          rw [if_pos rfl]
          simp [weekHasHoliday, weekHasSundayHoliday, List.any_append, hp]
        · rw [if_neg hkw]
          have hne : (r._tempWeek == k) = false := by
            rw [beq_eq_false_iff_ne]
            exact fun h => hkw h.symm
          simp [weekHasHoliday, weekHasSundayHoliday, List.any_append, hne]
      · have hnomem : ¬ r._tempWeek ∈ weekKeys rs :=
          fun hmem => hc (contains_iff_mem.mpr hmem)
        rw [if_neg hc, if_pos (by simp [hp]; exact hnomem)]
        rw [updateWeek_append r._tempWeek _ _ _ (by
          intro p hp'
          obtain ⟨k', hk', rfl⟩ := List.mem_map.mp hp'
          intro hkeq
          simp only at hkeq
          exact hnomem (hkeq ▸ hk'))]
        rw [List.map_append]
        congr 1
        · apply List.map_congr_left
          intro k hk
          have hne : (r._tempWeek == k) = false := by
            rw [beq_eq_false_iff_ne]
            exact fun h => hnomem (h ▸ hk)
          simp [weekHasHoliday, weekHasSundayHoliday, List.any_append, hne]
        · have hnofault1 : rs.any (fun r' =>
              r'.dayParsed && r'._tempWeek == r._tempWeek && r'._tempIsHoliday) = false := by
            rw [List.any_eq_false]
            intro r' hr' hcontra
            simp only [Bool.and_eq_true, beq_iff_eq] at hcontra
            exact hnomem (mem_weekKeys.mpr ⟨r', hr', hcontra.1.1, hcontra.1.2⟩)
          have hnofault2 : rs.any (fun r' =>
              r'.dayParsed && r'._tempWeek == r._tempWeek && r'._tempIsHoliday
                && r'._tempDayIndex == 0) = false := by
            rw [List.any_eq_false]
            intro r' hr' hcontra
            simp only [Bool.and_eq_true, beq_iff_eq] at hcontra
            exact hnomem (mem_weekKeys.mpr ⟨r', hr', hcontra.1.1.1, hcontra.1.1.2⟩)
          simp [emptyWeekData, weekHasHoliday, weekHasSundayHoliday, List.any_append,
            hp, hnofault1, hnofault2]
    · have hp' : r.dayParsed = false := by simpa using hp
      rw [if_neg (by simp [hp']), if_neg (by simp [hp'])]
      apply List.map_congr_left
      intro k hk
      simp [weekHasHoliday, weekHasSundayHoliday, List.any_append, hp']

theorem pass2_noop (rows : List ERow) :
    ∀ (ws : List (Int × WeekData)), (∀ p ∈ ws, p.2.sundayRow = none) →
    ws.foldl (fun rs p => pass2Week rs p.2) rows = rows := by
  intro ws
  induction ws generalizing rows with
  | nil => intro _; rfl
  | cons p t ih =>
    intro h
    simp only [List.foldl_cons]
    rw [show pass2Week rows p.2 = rows from by
      unfold pass2Week
      rw [h p (by simp)]]
    exact ih rows (fun q hq => h q (by simp [hq]))

theorem markFaults_map (rows2 : List ERow) :
    ∀ (keys : List Int) (g : Int → WeekData), keys.Nodup →
    rows2.foldl
      (fun ws r =>
        if r._tempIsFalta then
          updateWeek r._tempWeek (fun d => { d with hasFault := true }) ws
        else ws)
      (keys.map (fun k => (k, g k)))
      = keys.map (fun k =>
          (k, if rows2.any (fun r => r._tempWeek == k && r._tempIsFalta)
              then { g k with hasFault := true } else g k)) := by
  induction rows2 with
  | nil =>
    intro keys g _
    simp
  | cons r t ih =>
    intro keys g hnd
    simp only [List.foldl_cons]
    by_cases hf : r._tempIsFalta = true
    · rw [if_pos hf]
      rw [updateWeek_map _ _ _ _ hnd]
      rw [ih keys _ hnd]
      apply List.map_congr_left
      intro k hk
      by_cases hkw : k = r._tempWeek
      · subst hkw
        by_cases ht : (t.any fun r' => r'._tempWeek == r._tempWeek && r'._tempIsFalta) = true
        · simp [List.any_cons, hf, ht]
        · simp only [Bool.not_eq_true] at ht
          simp [List.any_cons, hf, ht]
      · have hne : (r._tempWeek == k) = false := by
          rw [beq_eq_false_iff_ne]
          exact fun h => hkw h.symm
        simp only [if_neg hkw, List.any_cons, hne, Bool.false_and, Bool.false_or]
    · rw [if_neg hf]
      rw [ih keys g hnd]
      apply List.map_congr_left
      intro k hk
      have hf' : r._tempIsFalta = false := by simpa using hf
      have : (r :: t).any (fun r' => r'._tempWeek == k && r'._tempIsFalta)
          = t.any (fun r' => r'._tempWeek == k && r'._tempIsFalta) := by
        simp [List.any_cons, hf']
      rw [this]

theorem dsrFold_eq_sum (l : List (Int × WeekData)) : ∀ (init : Int),
    l.foldl
      (fun acc p =>
        if p.2.hasFault then
          acc + 1 + (if p.2.hasHoliday && !p.2.holidayIsSunday then 1 else 0)
        else acc)
      init
      = init + (l.map (fun p =>
          if p.2.hasFault then
            1 + (if p.2.hasHoliday && !p.2.holidayIsSunday then 1 else 0)
          else 0)).sum := by
  induction l with
  | nil => intro init; simp
  | cons p t ih =>
    intro init
    simp only [List.foldl_cons, List.map_cons, List.sum_cons]
    by_cases hfp : p.2.hasFault = true
    · rw [if_pos hfp, if_pos hfp, ih]
      ring
    · rw [if_neg hfp, if_neg hfp, ih]
      ring

/-- C5 (amended): the recomputation's weekly DSR loss equals the sum, over
the weeks of the month, of: 1 for each week with an unresolved fault, plus
1 more when that week has a holiday and no holiday of the week falls on
Sunday. -/
theorem totalDsr_eq_dsrSpec (year month : Int) (customHolidays : List Holiday)
    (schedule : WeeklySchedule) (rows : List TimeRow) :
    (recompute year month customHolidays schedule rows).summary.totalDsrDescontado
      = dsrSpec (rows.map (enrichRow year month customHolidays schedule)) := by
  unfold recompute
  dsimp only
  set enriched := rows.map (enrichRow year month customHolidays schedule) with he
  rw [buildWeeks_spec enriched]
  rw [pass2_noop enriched _ (by
    intro p hp
    obtain ⟨k, hk, rfl⟩ := List.mem_map.mp hp
    rfl)]
  rw [markFaults_map _ _ _ (weekKeys_nodup enriched)]
  rw [dsrFold_eq_sum]
  rw [zero_add]
  unfold dsrSpec
  rw [List.map_map]
  apply congrArg List.sum
  apply List.map_congr_left
  intro k hk
  have hany : ((enriched.map (fun r =>
        if r.orig.forceDsr then { r with _tempIsFalta := false } else r)).any
        (fun r => r._tempWeek == k && r._tempIsFalta))
      = weekHasUnresolvedFault enriched k := by
    rw [weekHasUnresolvedFault, List.any_map]
    congr 1
    funext r
    by_cases hfd : r.orig.forceDsr = true
    · simp [Function.comp, hfd]
    · have hfd' : r.orig.forceDsr = false := by simpa using hfd
      simp [Function.comp, hfd']
  simp only [Function.comp]
  rw [hany]
  by_cases hw : weekHasUnresolvedFault enriched k = true
  · rw [if_pos hw]
    simp only [if_true, hw]
  · rw [if_neg hw]
    have hw' : weekHasUnresolvedFault enriched k = false := by simpa using hw
    simp [hw']

end Leitor

